import Mathlib

/-!
Verification development for the Drum-Machine-PRO soundkit catalog.

The JavaScript sources (scripts/generate-manifest.js and index.js) are given a
shallow embedding here.  JS strings are modelled as lists of characters
(`Str`), JS `Map`/object dictionaries as association lists with JS insertion
and overwrite semantics, and JS numbers as rationals (`ℚ`).  Fallible
operations (a thrown `TypeError`, a `null` return) are modelled with `Option`.
-/

set_option maxHeartbeats 1000000

/-- Model of a JavaScript string: a list of characters. -/
abbrev Str := List Char

/-- Whitespace characters removed by JS String.prototype.trim (the ASCII ones
plus no-break space, which covers every character appearing in this system). -/
def jsIsSpace (c : Char) : Bool :=
  c == ' ' || c == '\t' || c == '\n' || c == '\r' ||
  c == Char.ofNat 11 || c == Char.ofNat 12 || c == Char.ofNat 160

/-- Model of `s.trim()`: drop whitespace from both ends. -/
def jsTrim (l : Str) : Str :=
  ((l.dropWhile jsIsSpace).reverse.dropWhile jsIsSpace).reverse

/-- Model of `s.toLowerCase()` on the ASCII range used by the catalog. -/
def toLowerStr (l : Str) : Str := l.map Char.toLower

/-- Model of `filename.startsWith('.')`. -/
def strStartsWithDot (l : Str) : Bool :=
  match l with
  | [] => false
  | c :: _ => c == '.'

/-- The three-character separator `" - "` used by the filename convention. -/
def sepStr : Str := ' ' :: '-' :: ' ' :: []

/-- Whether `" - "` occurs anywhere in the string (the test
`lastIndexOf(' - ') === -1` of the source is its negation). -/
def hasSep : Str → Bool
  | [] => false
  | c :: rest => sepStr.isPrefixOf (c :: rest) || hasSep rest

/-- Split a string at the last occurrence of `" - "`: the source computes
`lastIndexOf(' - ')`, then `substring(0, i)` and `substring(i + 3)`.  Returns
the two surrounding substrings, or `none` when the separator is absent. -/
def splitLastSep : Str → Option (Str × Str)
  | [] => none
  | c :: rest =>
    match splitLastSep rest with
    | some (p, q) => some (c :: p, q)
    | none => if sepStr.isPrefixOf (c :: rest) then some ([], rest.drop 2) else none

/-- Model of `filename.slice(0, -ext.length)`.  For the empty extension the JS
expression is `slice(0, -0)`, which equals `slice(0, 0)`, the empty string. -/
def stripExt (ext f : Str) : Str :=
  if ext = [] then [] else f.take (f.length - ext.length)

/-- The static configuration object of scripts/generate-manifest.js. -/
structure ScanConfig where
  instruments : List Str
  fileExtension : Str
  githubPagesBaseUrl : Str

/-- SoundkitScanner.parseFilename: reject filenames without the required
extension, split the extension-stripped name at the last `" - "`, trim both
parts, lowercase the instrument tag, and validate it against the vocabulary. -/
def parseFilename (cfg : ScanConfig) (filename : Str) : Option (Str × Str) :=
  if cfg.fileExtension <:+ filename then
    match splitLastSep (stripExt cfg.fileExtension filename) with
    | none => none
    | some (p, q) =>
      let soundkitName := jsTrim p
      let instrument := toLowerStr (jsTrim q)
      if instrument ∈ cfg.instruments then some (soundkitName, instrument) else none
  else none

/-- One character of the slug alphabet `[a-z0-9]`. -/
def isSlugChar (c : Char) : Bool :=
  ('a' ≤ c && c ≤ 'z') || ('0' ≤ c && c ≤ '9')

/-- Model of `replace(/[^a-z0-9]+/g, '-')`: the flag records whether the
previous character belonged to a run already replaced by a dash. -/
def collapseGo : Bool → Str → Str
  | _, [] => []
  | inRun, c :: rest =>
    if isSlugChar c then c :: collapseGo false rest
    else if inRun then collapseGo true rest
    else '-' :: collapseGo true rest

/-- Model of `replace(/^-|-$/g, '')`: remove one leading and one trailing
dash. -/
def stripDashEnds (l : Str) : Str :=
  let l1 := match l with
    | '-' :: t => t
    | _ => l
  if l1.getLast? = some '-' then l1.dropLast else l1

/-- SoundkitScanner.generateId: lowercase, collapse non-alphanumeric runs to a
single dash, strip the dashes at the ends. -/
def generateId (name : Str) : Str :=
  stripDashEnds (collapseGo false (toLowerStr name))

/-- One soundkit record as built by SoundkitScanner.scan. -/
structure Kit where
  name : Str
  id : Str
  instruments : List (Str × Str)
  completeness : ℚ
  availableInstruments : List Str
deriving DecidableEq

/-- Lookup in an association list (JS object property read / Map.get). -/
def lookupA {α : Type} : List (Str × α) → Str → Option α
  | [], _ => none
  | (a, b) :: t, k => if a = k then some b else lookupA t k

/-- JS object property write / Map.set: overwrite the entry in place if the
key exists, append a fresh entry otherwise. -/
def objInsert {α : Type} (l : List (Str × α)) (k : Str) (v : α) : List (Str × α) :=
  if (lookupA l k).isSome then l.map (fun e => (e.1, if e.1 = k then v else e.2))
  else l ++ [(k, v)]

/-- Update the kit stored under a key, in place. -/
def updateKit (s : List (Str × Kit)) (k : Str) (f : Kit → Kit) : List (Str × Kit) :=
  s.map (fun e => (e.1, if e.1 = k then f e.2 else e.2))

/-- The fresh record created when a soundkit name is first seen. -/
def newKit (name : Str) : Kit :=
  { name := name, id := generateId name, instruments := [],
    completeness := 0, availableInstruments := [] }

/-- Record one located file for a kit: store the relative path
`instrument/filename` under the subdirectory's tag and push the tag. -/
def addSample (dir f : Str) (kit : Kit) : Kit :=
  { kit with
    instruments := objInsert kit.instruments dir (dir ++ '/' :: f),
    availableInstruments := kit.availableInstruments ++ [dir] }

/-- The filter applied inside scan before parsing: skip files without the
required extension and hidden files. -/
def fileAccepted (cfg : ScanConfig) (f : Str) : Bool :=
  decide (cfg.fileExtension <:+ f) && !(strStartsWithDot f)

/-- Processing of a single directory entry inside SoundkitScanner.scan. -/
def processFile (cfg : ScanConfig) (dir : Str) (s : List (Str × Kit)) (f : Str) :
    List (Str × Kit) :=
  if fileAccepted cfg f then
    match parseFilename cfg f with
    | none => s
    | some (soundkitName, _) =>
      let s1 := if (lookupA s soundkitName).isSome then s
                else s ++ [(soundkitName, newKit soundkitName)]
      updateKit s1 soundkitName (addSample dir f)
  else s

/-- Scan of one instrument subdirectory: fold the listing in order. -/
def processDir (cfg : ScanConfig) (listing : Str → List Str)
    (s : List (Str × Kit)) (dir : Str) : List (Str × Kit) :=
  (listing dir).foldl (processFile cfg dir) s

/-- The accumulation phase of SoundkitScanner.scan, before completeness is
computed: fold the instrument subdirectories in vocabulary order. -/
def scanRaw (cfg : ScanConfig) (listing : Str → List Str) : List (Str × Kit) :=
  cfg.instruments.foldl (processDir cfg listing) []

/-- Model of `[...new Set(arr)]`: deduplicate keeping first occurrences. -/
def jsDedup : List Str → List Str
  | [] => []
  | a :: t => a :: jsDedup (t.filter (fun b => decide (b ≠ a)))
termination_by l => l.length
decreasing_by
  simp only [List.length_cons]
  exact Nat.lt_succ_of_le (List.length_filter_le _ _)

/-- The per-kit normalization at the end of scan: deduplicate and sort the
available instruments, then compute the completeness percentage. -/
def finalizeKit (cfg : ScanConfig) (kit : Kit) : Kit :=
  let avail := List.insertionSort (· ≤ ·) (jsDedup kit.availableInstruments)
  { kit with
    availableInstruments := avail,
    completeness := (avail.length : ℚ) / (cfg.instruments.length : ℚ) * 100 }

/-- SoundkitScanner.scan: accumulate all subdirectory listings, then finalize
every kit. -/
def scan (cfg : ScanConfig) (listing : Str → List Str) : List (Str × Kit) :=
  (scanRaw cfg listing).map (fun e => (e.1, finalizeKit cfg e.2))

/-- The statistics object of SoundkitScanner.generateStatistics. -/
structure Stats where
  totalFiles : Nat
  instrumentCoverage : List (Str × Nat)
  completeSoundkits : Nat
  averageCompleteness : ℚ
deriving DecidableEq

/-- Model of `stats.instrumentCoverage[inst]++` for a tag present in the map.
A tag absent from the map cannot occur for kits scanned from the same
vocabulary (every vocabulary tag is initialized to 0 first). -/
def bumpCoverage (cov : List (Str × Nat)) (inst : Str) : List (Str × Nat) :=
  cov.map (fun e => (e.1, if e.1 = inst then e.2 + 1 else e.2))

/-- The body of the inner forEach of generateStatistics: count one available
instrument into the coverage map and the file total. -/
def statsBump (a : Stats) (i : Str) : Stats :=
  { a with instrumentCoverage := bumpCoverage a.instrumentCoverage i,
           totalFiles := a.totalFiles + 1 }

/-- The per-kit step of generateStatistics: count each available instrument
into the coverage map and the file total, then count complete kits. -/
def statsFold (acc : Stats) (kit : Kit) : Stats :=
  let acc1 := kit.availableInstruments.foldl statsBump acc
  if kit.completeness = 100 then { acc1 with completeSoundkits := acc1.completeSoundkits + 1 }
  else acc1

/-- SoundkitScanner.generateStatistics. -/
def generateStatistics (cfg : ScanConfig) (kits : List Kit) : Stats :=
  let init : Stats :=
    { totalFiles := 0,
      instrumentCoverage := cfg.instruments.foldl (fun m i => objInsert m i 0) [],
      completeSoundkits := 0, averageCompleteness := 0 }
  let s := kits.foldl statsFold init
  { s with
    averageCompleteness :=
      if kits.length > 0 then kits.foldl (fun sum kit => sum + kit.completeness) 0 / kits.length
      else 0 }

/-- The manifest document of SoundkitScanner.generateManifest.  The generation
timestamp is an environment input and is passed in explicitly. -/
structure Manifest where
  version : Str
  generated : Str
  totalSoundkits : Nat
  instruments : List Str
  baseUrl : Option Str
  soundkits : List Kit
  statistics : Stats

/-- SoundkitScanner.generateManifest: sort kit records by name (the source
uses localeCompare; on the ASCII names of this catalog that is the
lexicographic order used here) and assemble the document. -/
def generateManifest (cfg : ScanConfig) (generated : Str)
    (s : List (Str × Kit)) : Manifest :=
  let soundkitsArray := List.insertionSort (fun a b : Kit => a.name ≤ b.name) (s.map Prod.snd)
  { version := "1.0.0".data, generated := generated,
    totalSoundkits := soundkitsArray.length,
    instruments := cfg.instruments,
    baseUrl := if cfg.githubPagesBaseUrl = [] then none else some cfg.githubPagesBaseUrl,
    soundkits := soundkitsArray,
    statistics := generateStatistics cfg soundkitsArray }

/-- The SoundkitManager of index.js, after construction. -/
structure Manager where
  manifest : Manifest
  baseUrl : Str
  samplesPath : Str

/-- JS `a || b` on strings: the empty string is falsy. -/
def jsOrStr (a b : Str) : Str := if a = [] then b else a

/-- SoundkitManager construction (the field initializers of the constructor):
`options.baseUrl || manifestData.baseUrl || ''` and
`options.samplesPath || 'samples'`. -/
def mkManager (m : Manifest) (optBase optSamples : Option Str) : Manager :=
  { manifest := m,
    baseUrl := jsOrStr (optBase.getD []) (jsOrStr (m.baseUrl.getD []) []),
    samplesPath := jsOrStr (optSamples.getD []) "samples".data }

/-- The id-to-kit map built by _buildLookupMaps (`soundkitMap.set(id, kit)`,
later entries overwrite earlier ones). -/
def soundkitMapOf (m : Manifest) : List (Str × Kit) :=
  m.soundkits.foldl (fun a kit => objInsert a kit.id kit) []

/-- SoundkitManager.getSoundkit: Map.get, absent modelled as `none`. -/
def getSoundkit (mgr : Manager) (id : Str) : Option Kit :=
  lookupA (soundkitMapOf mgr.manifest) id

/-- Model of `this.soundkitsByInstrument.get(instrument).push(soundkit.id)`:
`none` models the TypeError thrown when the instrument map has no entry. -/
def pushToInstr (m : List (Str × List Str)) (inst : Str) (id : Str) :
    Option (List (Str × List Str)) :=
  match lookupA m inst with
  | none => none
  | some _ => some (m.map (fun e => (e.1, if e.1 = inst then e.2 ++ [id] else e.2)))

/-- Push one kit id under every tag of its availableInstruments. -/
def pushAll (m : List (Str × List Str)) (id : Str) : List Str → Option (List (Str × List Str))
  | [] => some m
  | i :: t =>
    match pushToInstr m i id with
    | none => none
    | some m2 => pushAll m2 id t

/-- The per-kit loop of _buildLookupMaps: record the kit in the id map, then
push its id under each of its instrument tags. -/
def buildGo : List Kit → List (Str × Kit) × List (Str × List Str) →
    Option (List (Str × Kit) × List (Str × List Str))
  | [], st => some st
  | kit :: rest, (km, im) =>
    match pushAll im kit.id kit.availableInstruments with
    | none => none
    | some im2 => buildGo rest (objInsert km kit.id kit, im2)

/-- SoundkitManager._buildLookupMaps: initialize one empty list per manifest
instrument, then fold the soundkits.  `none` models the constructor throwing. -/
def buildLookupMaps (m : Manifest) : Option (List (Str × Kit) × List (Str × List Str)) :=
  buildGo m.soundkits ([], m.instruments.foldl (fun a i => objInsert a i []) [])

/-- SoundkitManager.getSampleUrl.  The source rejects with `null` when the kit
is unknown or when `!soundkit.instruments[instrument]` holds — an absent entry
or an empty (falsy) stored path. -/
def getSampleUrl (mgr : Manager) (soundkitId instrument : Str) : Option Str :=
  match getSoundkit mgr soundkitId with
  | none => none
  | some kit =>
    match lookupA kit.instruments instrument with
    | none => none
    | some relativePath =>
      if relativePath = [] then none
      else some (if mgr.baseUrl ≠ [] then
          mgr.baseUrl ++ '/' :: (mgr.samplesPath ++ '/' :: relativePath)
        else mgr.samplesPath ++ '/' :: relativePath)

/-- SoundkitManager.getSoundkitsByCompleteness: sort a copy of the soundkits
by completeness; JS Array.sort is stable, modelled by insertion sort. -/
def getSoundkitsByCompleteness (mgr : Manager) (ascending : Bool) : List Kit :=
  List.insertionSort
    (fun a b : Kit => if ascending then a.completeness ≤ b.completeness
                      else b.completeness ≤ a.completeness)
    mgr.manifest.soundkits

/-- The keys of an association list, in order. -/
def keysOf {α : Type} (l : List (Str × α)) : List Str := l.map Prod.fst

/-- A directory entry is accepted for kit name k when it passes the scan
filter and parses to that kit name. -/
def acceptsKit (cfg : ScanConfig) (f k : Str) : Bool :=
  fileAccepted cfg f && decide ((parseFilename cfg f).map Prod.fst = some k)

/-- The last entry of a listing accepted for kit name k; its path is the one
that survives the scan (later writes overwrite earlier ones). -/
def lastAcceptedFor (cfg : ScanConfig) (fs : List Str) (k : Str) : Option Str :=
  fs.reverse.find? (fun f => acceptsKit cfg f k)

/-- Agreement of two kit records: equal name, id, completeness and available
instruments, and extensionally equal instrument path mappings. -/
def KitAgree (k1 k2 : Kit) : Prop :=
  k1.name = k2.name ∧ k1.id = k2.id ∧
  (∀ t, lookupA k1.instruments t = lookupA k2.instruments t) ∧
  k1.availableInstruments = k2.availableInstruments ∧
  k1.completeness = k2.completeness

/-- Agreement of two optional kit records. -/
def OptKitAgree : Option Kit → Option Kit → Prop
  | none, none => True
  | some a, some b => KitAgree a b
  | _, _ => False

/-- Instrument path of an optional kit record. -/
def instrLookupOpt (o : Option Kit) (t : Str) : Option Str :=
  o.bind (fun k => lookupA k.instruments t)

/-- Completeness of an optional kit record (0 when absent). -/
def completenessOf (o : Option Kit) : ℚ := (o.map Kit.completeness).getD 0

/-- Available instruments of an optional kit record (empty when absent). -/
def availOf (o : Option Kit) : List Str := (o.map Kit.availableInstruments).getD []

/-- Modelled from the spec: the slug algorithm described in the data model —
lowercase the name, replace every maximal run of characters outside
the a-z, 0-9 alphabet by a single dash, strip a leading and a trailing
dash.  The maximal-run replacement is written directly with dropWhile. -/
def specCollapse : Str → Str
  | [] => []
  | c :: rest =>
    if isSlugChar c then c :: specCollapse rest
    else '-' :: specCollapse (rest.dropWhile (fun d => !isSlugChar d))
termination_by l => l.length
decreasing_by
  · simp only [List.length_cons]; omega
  · simp only [List.length_cons]
    exact Nat.lt_succ_of_le (List.dropWhile_sublist _).length_le

/-- Modelled from the spec: the full slug derivation in the spec's words. -/
def generateIdSpec (name : Str) : Str :=
  stripDashEnds (specCollapse (toLowerStr name))

/-- The configured instrument vocabulary of the repository. -/
def cfgEx : ScanConfig :=
  { instruments := ["kick".data, "snare".data, "hihat".data, "clap".data,
                    "crash".data, "open".data, "rim".data, "bell".data],
    fileExtension := ".wav".data, githubPagesBaseUrl := [] }

/-- A one-instrument configuration used for concrete scans. -/
def cfgKick : ScanConfig :=
  { instruments := ["kick".data], fileExtension := ".wav".data, githubPagesBaseUrl := [] }

/-- A two-instrument configuration used for concrete scans. -/
def cfgKickSnare : ScanConfig :=
  { instruments := ["kick".data, "snare".data], fileExtension := ".wav".data,
    githubPagesBaseUrl := [] }

/-- cfgKickSnare with the subdirectory scan order permuted. -/
def cfgSnareKick : ScanConfig :=
  { instruments := ["snare".data, "kick".data], fileExtension := ".wav".data,
    githubPagesBaseUrl := [] }

/-- Listing with two distinct files of the kick directory that parse to the
same kit name A (the second trims to A as well). -/
def listClash : Str → List Str :=
  fun t => if t = "kick".data then ["A - kick.wav".data, "A  - kick.wav".data] else []

/-- listClash with the two files of the kick directory swapped. -/
def listClashRev : Str → List Str :=
  fun t => if t = "kick".data then ["A  - kick.wav".data, "A - kick.wav".data] else []

/-- Listing whose two kit names collide on the same slug. -/
def listSlugClash : Str → List Str :=
  fun t => if t = "kick".data then ["My Kit - kick.wav".data, "My-Kit - kick.wav".data] else []

/-- Listing with two kits, one file each, in the kick directory. -/
def listTwoKits : Str → List Str :=
  fun t => if t = "kick".data then ["A - kick.wav".data, "B - kick.wav".data] else []

/-- Listing for the two-instrument configuration: kit A has only a kick. -/
def listOneKick : Str → List Str :=
  fun t => if t = "kick".data then ["A - kick.wav".data] else []

/-- listOneKick with the (singleton or empty) listings unchanged — used as the
permuted counterpart when only the directory order changes. -/
def listOneKickPerm : Str → List Str := listOneKick

/-- A concrete kit record used in manifests fed to the accessor. -/
def kitA : Kit :=
  { name := "A".data, id := "a".data,
    instruments := [("kick".data, "kick/A - kick.wav".data)],
    completeness := 0, availableInstruments := ["kick".data] }

/-- A kit record whose stored path for kick is the empty string. -/
def kitEmptyPath : Kit :=
  { name := "E".data, id := "e".data,
    instruments := [("kick".data, [])],
    completeness := 0, availableInstruments := ["kick".data] }

/-- A kit record listing a tag that is missing from the manifest vocabulary. -/
def kitForeignTag : Kit :=
  { name := "F".data, id := "f".data,
    instruments := [("tom".data, "tom/F - tom.wav".data)],
    completeness := 0, availableInstruments := ["tom".data] }

/-- Zero-valued statistics used in concrete manifests. -/
def statsZero : Stats :=
  { totalFiles := 0, instrumentCoverage := [], completeSoundkits := 0,
    averageCompleteness := 0 }

/-- A concrete manifest with one well-formed kit. -/
def manifestA : Manifest :=
  { version := "1.0.0".data, generated := [], totalSoundkits := 1,
    instruments := ["kick".data], baseUrl := none,
    soundkits := [kitA], statistics := statsZero }

/-- A concrete manifest holding the kit with the empty stored path. -/
def manifestEmptyPath : Manifest :=
  { version := "1.0.0".data, generated := [], totalSoundkits := 1,
    instruments := ["kick".data], baseUrl := none,
    soundkits := [kitEmptyPath], statistics := statsZero }

/-- A concrete manifest whose kit lists a tag outside the vocabulary. -/
def manifestForeign : Manifest :=
  { version := "1.0.0".data, generated := [], totalSoundkits := 1,
    instruments := ["kick".data], baseUrl := none,
    soundkits := [kitForeignTag], statistics := statsZero }


theorem lookupA_append {α : Type} (l1 l2 : List (Str × α)) (k : Str) :
    lookupA (l1 ++ l2) k =
      match lookupA l1 k with
      | some v => some v
      | none => lookupA l2 k := by
  induction l1 with
  | nil => simp [lookupA]
  | cons e t ih =>
    obtain ⟨a, b⟩ := e
    by_cases h : a = k <;> simp [lookupA, h, ih]

theorem lookupA_mapEntries {α β : Type} (g : Str → α → β) (s : List (Str × α)) (k : Str) :
    lookupA (s.map (fun e => (e.1, g e.1 e.2))) k = (lookupA s k).map (g k) := by
  induction s with
  | nil => simp [lookupA]
  | cons e t ih =>
    obtain ⟨a, b⟩ := e
    by_cases h : a = k
    · subst h; simp [lookupA]
    · simp [lookupA, h, ih]

theorem lookupA_updateKit (s : List (Str × Kit)) (k : Str) (f : Kit → Kit) (k' : Str) :
    lookupA (updateKit s k f) k' =
      if k = k' then (lookupA s k).map f else lookupA s k' := by
  unfold updateKit
  rw [lookupA_mapEntries (fun a b => if a = k then f b else b)]
  by_cases h : k = k'
  · subst h; simp
  · rw [if_neg h]
    cases lookupA s k' <;> simp [Ne.symm h]

theorem lookupA_objInsert {α : Type} (l : List (Str × α)) (k : Str) (v : α) (k' : Str) :
    lookupA (objInsert l k v) k' = if k = k' then some v else lookupA l k' := by
  unfold objInsert
  by_cases hs : (lookupA l k).isSome
  · rw [if_pos hs, lookupA_mapEntries (fun a b => if a = k then v else b)]
    by_cases h : k = k'
    · subst h
      obtain ⟨w, hw⟩ := Option.isSome_iff_exists.mp hs
      simp [hw]
    · rw [if_neg h]
      cases lookupA l k' <;> simp [Ne.symm h]
  · rw [if_neg hs, lookupA_append]
    have hnone : lookupA l k = none := by
      cases h : lookupA l k
      · rfl
      · exact absurd (by simp [h]) hs
    by_cases h : k = k'
    · subst h
      simp [hnone, lookupA]
    · cases hl : lookupA l k' <;> simp [lookupA, h, hl]

theorem keysOf_mapEntries {α β : Type} (g : Str → α → β) (s : List (Str × α)) :
    keysOf (s.map (fun e => (e.1, g e.1 e.2))) = keysOf s := by
  simp [keysOf, List.map_map, Function.comp]

theorem keysOf_append {α : Type} (l1 l2 : List (Str × α)) :
    keysOf (l1 ++ l2) = keysOf l1 ++ keysOf l2 := by
  simp [keysOf]

theorem keysOf_updateKit (s : List (Str × Kit)) (k : Str) (f : Kit → Kit) :
    keysOf (updateKit s k f) = keysOf s := by
  unfold updateKit
  exact keysOf_mapEntries (fun a b => if a = k then f b else b) s

theorem keysOf_objInsert {α : Type} (l : List (Str × α)) (k : Str) (v : α) :
    keysOf (objInsert l k v) =
      if (lookupA l k).isSome then keysOf l else keysOf l ++ [k] := by
  unfold objInsert
  by_cases hs : (lookupA l k).isSome
  · rw [if_pos hs, if_pos hs, keysOf_mapEntries (fun a b => if a = k then v else b)]
  · rw [if_neg hs, if_neg hs, keysOf_append]
    simp only [keysOf, List.map_cons, List.map_nil]

theorem lookupA_eq_none_iff {α : Type} (l : List (Str × α)) (k : Str) :
    lookupA l k = none ↔ k ∉ keysOf l := by
  induction l with
  | nil => simp [lookupA, keysOf]
  | cons e t ih =>
    obtain ⟨a, b⟩ := e
    by_cases h : a = k
    · subst h
      simp only [lookupA, if_pos rfl, keysOf, List.map_cons, List.mem_cons]
      constructor
      · intro hc; exact Option.noConfusion hc
      · intro hc; exact absurd (Or.inl trivial) hc
    · simp only [lookupA, if_neg h, keysOf, List.map_cons, List.mem_cons]
      rw [ih]
      simp only [keysOf]
      constructor
      · intro hx hc
        rcases hc with hc | hc
        · exact h hc.symm
        · exact hx hc
      · intro hx hc
        exact hx (Or.inr hc)

theorem lookupA_isSome_iff {α : Type} (l : List (Str × α)) (k : Str) :
    (lookupA l k).isSome = true ↔ k ∈ keysOf l := by
  cases h : lookupA l k
  · simpa using (lookupA_eq_none_iff l k).mp h
  · have hmem : ¬ k ∉ keysOf l := by
      intro hk
      rw [(lookupA_eq_none_iff l k).mpr hk] at h
      exact Option.noConfusion h
    simpa using not_not.mp hmem

theorem lookupA_of_mem_nodup {α : Type} {l : List (Str × α)} {k : Str} {v : α}
    (hm : (k, v) ∈ l) (hn : (keysOf l).Nodup) : lookupA l k = some v := by
  induction l with
  | nil => simp at hm
  | cons e t ih =>
    obtain ⟨a, b⟩ := e
    simp only [keysOf, List.map_cons, List.nodup_cons] at hn
    rcases List.mem_cons.mp hm with h | h
    · obtain ⟨h1, h2⟩ := Prod.mk.injEq .. ▸ h
      cases h; simp [lookupA]
    · have hak : a ≠ k := by
        intro hak; subst hak
        exact hn.1 (List.mem_map.mpr ⟨(a, v), h, rfl⟩)
      simp [lookupA, hak, ih h hn.2]

theorem splitLastSep_eq_none_iff (l : Str) : splitLastSep l = none ↔ hasSep l = false := by
  induction l with
  | nil => simp [splitLastSep, hasSep]
  | cons c rest ih =>
    cases h : splitLastSep rest with
    | some p =>
      obtain ⟨p1, p2⟩ := p
      have hr : hasSep rest = true := by
        by_contra hc
        rw [ih.mpr (Bool.not_eq_true _ ▸ Bool.of_not_eq_true hc)] at h
        exact Option.noConfusion h
      simp [splitLastSep, h, hasSep, hr]
    | none =>
      have hrest : hasSep rest = false := ih.mp h
      by_cases hp : sepStr.isPrefixOf (c :: rest) <;>
        simp [splitLastSep, h, hasSep, hrest, hp]

theorem splitLastSep_append (pre post : Str) (h : hasSep ('-' :: ' ' :: post) = false) :
    splitLastSep (pre ++ sepStr ++ post) = some (pre, post) := by
  induction pre with
  | nil =>
    have h2 : splitLastSep ('-' :: ' ' :: post) = none := (splitLastSep_eq_none_iff _).mpr h
    show splitLastSep (' ' :: '-' :: ' ' :: post) = some ([], post)
    rw [splitLastSep, h2]
    simp [sepStr, List.isPrefixOf]
  | cons c pre ih =>
    show splitLastSep (c :: ((pre ++ sepStr) ++ post)) = some (c :: pre, post)
    rw [splitLastSep, ih]

theorem stripExt_append (ext A : Str) (h : ext ≠ []) :
    stripExt ext (A ++ ext) = A := by
  unfold stripExt
  rw [if_neg h, List.length_append, Nat.add_sub_cancel, List.take_left]

/-- C2: for every filename of the form name-separator-tag-extension whose
trimmed, lowercased trailing tag (the segment after the last occurrence of
the separator) belongs to the vocabulary, parseFilename returns exactly the
trimmed name before that last separator together with the trimmed, lowercased
tag.  The hypothesis hnosep states that no further separator occurrence starts
after the exhibited one, so the split is at the last occurrence. -/
theorem C2_parse_valid (cfg : ScanConfig) (pre post : Str)
    (hext : cfg.fileExtension ≠ [])
    (hnosep : hasSep ('-' :: ' ' :: post) = false)
    (hvoc : toLowerStr (jsTrim post) ∈ cfg.instruments) :
    parseFilename cfg (pre ++ sepStr ++ post ++ cfg.fileExtension) =
      some (jsTrim pre, toLowerStr (jsTrim post)) := by
  have hsuf : cfg.fileExtension <:+ (pre ++ sepStr ++ post ++ cfg.fileExtension) := by
    have := List.suffix_append (pre ++ sepStr ++ post) cfg.fileExtension
    simpa [List.append_assoc] using this
  have hstrip : stripExt cfg.fileExtension (pre ++ sepStr ++ post ++ cfg.fileExtension) =
      pre ++ sepStr ++ post := by
    have := stripExt_append cfg.fileExtension (pre ++ sepStr ++ post) hext
    simpa [List.append_assoc] using this
  unfold parseFilename
  rw [if_pos hsuf, hstrip, splitLastSep_append pre post hnosep]
  simp [hvoc]

/-- Witness for C2 at the spec's example: "Weird - Kit - hihat.wav" splits at
the last separator, yielding kit name "Weird - Kit" and instrument "hihat". -/
theorem C2_parse_valid_witness :
    cfgEx.fileExtension ≠ [] ∧
    hasSep ('-' :: ' ' :: "hihat".data) = false ∧
    toLowerStr (jsTrim "hihat".data) ∈ cfgEx.instruments ∧
    parseFilename cfgEx ("Weird - Kit".data ++ sepStr ++ "hihat".data ++ cfgEx.fileExtension) =
      some (jsTrim "Weird - Kit".data, toLowerStr (jsTrim "hihat".data)) :=
  ⟨by decide, by decide, by decide,
    C2_parse_valid cfgEx "Weird - Kit".data "hihat".data (by decide) (by decide) (by decide)⟩

/-- C3: parseFilename rejects (returns none, never throws — it is total) any
filename that does not end in the required extension, or whose
extension-stripped form has no separator, or whose trimmed lowercased
trailing segment is not in the vocabulary. -/
theorem C3_parse_rejects (cfg : ScanConfig) (f : Str)
    (h : ¬ (cfg.fileExtension <:+ f) ∨
         hasSep (stripExt cfg.fileExtension f) = false ∨
         (∀ p q, splitLastSep (stripExt cfg.fileExtension f) = some (p, q) →
            toLowerStr (jsTrim q) ∉ cfg.instruments)) :
    parseFilename cfg f = none := by
  unfold parseFilename
  by_cases hs : cfg.fileExtension <:+ f
  · rw [if_pos hs]
    rcases h with h | h | h
    · exact absurd hs h
    · rw [(splitLastSep_eq_none_iff _).mpr h]
    · cases hsp : splitLastSep (stripExt cfg.fileExtension f) with
      | none => rfl
      | some pq =>
        obtain ⟨p, q⟩ := pq
        simp [hsp, h p q hsp]
  · rw [if_neg hs]

/-- Witness for C3 at the spec's example: "Odd File.wav" has no separator and
is rejected. -/
theorem C3_parse_rejects_witness :
    hasSep (stripExt cfgEx.fileExtension "Odd File.wav".data) = false ∧
    parseFilename cfgEx "Odd File.wav".data = none :=
  ⟨by decide, C3_parse_rejects cfgEx "Odd File.wav".data (Or.inr (Or.inl (by decide)))⟩

theorem collapseGo_true_eq (l : Str) :
    collapseGo true l = collapseGo false (l.dropWhile (fun d => !isSlugChar d)) := by
  induction l with
  | nil => rfl
  | cons d t ih =>
    by_cases hd : isSlugChar d
    · simp [collapseGo, hd, List.dropWhile]
    · simp [collapseGo, hd, List.dropWhile, ih]

theorem collapseGo_false_eq_spec (n : Nat) : ∀ l : Str, l.length ≤ n →
    collapseGo false l = specCollapse l := by
  induction n with
  | zero =>
    intro l hl
    have : l = [] := List.eq_nil_of_length_eq_zero (Nat.le_zero.mp hl)
    subst this
    simp [collapseGo, specCollapse]
  | succ n ih =>
    intro l hl
    match l with
    | [] => simp [collapseGo, specCollapse]
    | c :: t =>
      by_cases hc : isSlugChar c
      · have ht : t.length ≤ n := by
          simpa using Nat.lt_succ_iff.mp (Nat.lt_of_lt_of_le (by simp) hl)
        rw [specCollapse]
        simp [collapseGo, hc, ih t ht]
      · have ht : (t.dropWhile (fun d => !isSlugChar d)).length ≤ n := by
          have h1 : (t.dropWhile (fun d => !isSlugChar d)).length ≤ t.length :=
            (List.dropWhile_sublist _).length_le
          have h2 : t.length ≤ n := by
            have := hl; simp [List.length_cons] at this; omega
          omega
        rw [specCollapse]
        simp [collapseGo, hc, collapseGo_true_eq, ih _ ht]

/-- C6: generateId is exactly the deterministic slug described by the spec —
lowercase the name, collapse each maximal run of non-alphanumeric characters
into one dash, strip a leading and a trailing dash — and the name
"Batman Begins" yields the id "batman-begins". -/
theorem C6_generateId_slug :
    (∀ name, generateId name = generateIdSpec name) ∧
    generateId "Batman Begins".data = "batman-begins".data :=
  ⟨fun name => by
      unfold generateId generateIdSpec
      rw [collapseGo_false_eq_spec (toLowerStr name).length _ le_rfl],
   by decide⟩

theorem lookupA_processFile (cfg : ScanConfig) (dir : Str) (s : List (Str × Kit)) (f k : Str) :
    lookupA (processFile cfg dir s f) k =
      if acceptsKit cfg f k then some (addSample dir f ((lookupA s k).getD (newKit k)))
      else lookupA s k := by
  by_cases hacc : fileAccepted cfg f
  · cases hp : parseFilename cfg f with
    | none =>
      have ha : ¬ (acceptsKit cfg f k = true) := by simp [acceptsKit, hp]
      unfold processFile
      rw [if_pos hacc, if_neg ha]
      simp only [hp]
    | some pr =>
      obtain ⟨kn, inst⟩ := pr
      unfold processFile
      rw [if_pos hacc]
      simp only [hp]
      by_cases hk : kn = k
      · subst hk
        have ha : acceptsKit cfg f kn = true := by simp [acceptsKit, hacc, hp]
        rw [if_pos ha]
        by_cases hex : (lookupA s kn).isSome
        · rw [if_pos hex, lookupA_updateKit, if_pos rfl]
          obtain ⟨w, hw⟩ := Option.isSome_iff_exists.mp hex
          rw [hw]; rfl
        · have hnone : lookupA s kn = none := by
            cases h : lookupA s kn
            · rfl
            · exact absurd (by simp [h]) hex
          rw [if_neg hex, lookupA_updateKit, if_pos rfl, lookupA_append, hnone]
          simp [lookupA]
      · have ha : ¬ (acceptsKit cfg f k = true) := by
          simp only [acceptsKit, hp, Bool.and_eq_true, decide_eq_true_eq]
          intro hc
          exact hk (Option.some.injEq .. ▸ hc.2)
        rw [if_neg ha, lookupA_updateKit, if_neg hk]
        by_cases hex : (lookupA s kn).isSome
        · rw [if_pos hex]
        · rw [if_neg hex, lookupA_append]
          cases hlk : lookupA s k with
          | none => simp [lookupA, hk]
          | some w => simp
  · have ha : ¬ (acceptsKit cfg f k = true) := by simp [acceptsKit, hacc]
    unfold processFile
    rw [if_neg hacc, if_neg ha]

theorem lastAcceptedFor_cons (cfg : ScanConfig) (f : Str) (fs : List Str) (k : Str) :
    lastAcceptedFor cfg (f :: fs) k =
      match lastAcceptedFor cfg fs k with
      | some g => some g
      | none => if acceptsKit cfg f k then some f else none := by
  unfold lastAcceptedFor
  rw [List.reverse_cons, List.find?_append]
  cases h : List.find? (fun g => acceptsKit cfg g k) fs.reverse with
  | none => by_cases hf : acceptsKit cfg f k <;> simp [List.find?_cons, hf]
  | some g => simp

theorem lastAcceptedFor_isSome (cfg : ScanConfig) (fs : List Str) (k : Str)
    (h : ∃ f ∈ fs, acceptsKit cfg f k = true) :
    (lastAcceptedFor cfg fs k).isSome = true := by
  unfold lastAcceptedFor
  rw [List.find?_isSome]
  obtain ⟨f, hf, ha⟩ := h
  exact ⟨f, List.mem_reverse.mpr hf, ha⟩

theorem lastAcceptedFor_eq_none (cfg : ScanConfig) (fs : List Str) (k : Str)
    (h : ∀ f ∈ fs, ¬ acceptsKit cfg f k = true) :
    lastAcceptedFor cfg fs k = none := by
  unfold lastAcceptedFor
  rw [List.find?_eq_none]
  intro x hx
  exact h x (List.mem_reverse.mp hx)

theorem foldl_processFile_none (cfg : ScanConfig) (dir : Str) (fs : List Str) :
    ∀ (s : List (Str × Kit)) (k : Str),
    fs.countP (fun f => acceptsKit cfg f k) = 0 →
    lookupA (fs.foldl (processFile cfg dir) s) k = lookupA s k := by
  induction fs with
  | nil => intro s k _; rfl
  | cons f fs ih =>
    intro s k h
    rw [List.countP_cons] at h
    have hf : ¬ (acceptsKit cfg f k = true) := by
      intro hc; simp [hc] at h
    have hfs : fs.countP (fun g => acceptsKit cfg g k) = 0 := by
      simpa [hf] using h
    rw [List.foldl_cons, ih _ _ hfs, lookupA_processFile, if_neg hf]

theorem foldl_processFile_some (cfg : ScanConfig) (dir : Str) (fs : List Str) :
    ∀ (s : List (Str × Kit)) (k : Str),
    fs.countP (fun f => acceptsKit cfg f k) ≠ 0 →
    ∃ kit, lookupA (fs.foldl (processFile cfg dir) s) k = some kit ∧
      kit.name = ((lookupA s k).getD (newKit k)).name ∧
      kit.id = ((lookupA s k).getD (newKit k)).id ∧
      kit.completeness = ((lookupA s k).getD (newKit k)).completeness ∧
      (∀ t, lookupA kit.instruments t =
        if t = dir then (lastAcceptedFor cfg fs k).map (fun g => dir ++ '/' :: g)
        else lookupA ((lookupA s k).getD (newKit k)).instruments t) ∧
      (∀ x, x ∈ kit.availableInstruments ↔
        x ∈ ((lookupA s k).getD (newKit k)).availableInstruments ∨ x = dir) := by
  induction fs with
  | nil => intro s k h; exact absurd rfl h
  | cons f fs ih =>
    intro s k hcnt
    rw [List.foldl_cons]
    have hs' := lookupA_processFile cfg dir s f k
    by_cases hf : acceptsKit cfg f k = true
    · rw [if_pos hf] at hs'
      by_cases hrest : fs.countP (fun g => acceptsKit cfg g k) = 0
      · have hnone : lastAcceptedFor cfg fs k = none :=
          lastAcceptedFor_eq_none cfg fs k (List.countP_eq_zero.mp hrest)
        have hlast : lastAcceptedFor cfg (f :: fs) k = some f := by
          rw [lastAcceptedFor_cons, hnone]
          simp [hf]
        refine ⟨addSample dir f ((lookupA s k).getD (newKit k)), ?_, rfl, rfl, rfl, ?_, ?_⟩
        · rw [foldl_processFile_none cfg dir fs _ _ hrest, hs']
        · intro t
          rw [hlast]
          show lookupA (objInsert _ dir _) t = _
          rw [lookupA_objInsert]
          by_cases ht : t = dir
          · subst ht; simp
          · rw [if_neg (fun h => ht h.symm), if_neg ht]
        · intro x
          show x ∈ _ ++ [dir] ↔ _
          simp [List.mem_append]
      · obtain ⟨kit, hlk, hname, hid, hcomp, hinstr, havail⟩ := ih (processFile cfg dir s f) k hrest
        have hbase' : (lookupA (processFile cfg dir s f) k).getD (newKit k) =
            addSample dir f ((lookupA s k).getD (newKit k)) := by
          rw [hs']; rfl
        have hlastS : (lastAcceptedFor cfg fs k).isSome = true := by
          apply lastAcceptedFor_isSome
          obtain ⟨g, hg, ha⟩ := List.countP_pos_iff.mp (Nat.pos_of_ne_zero hrest)
          exact ⟨g, hg, ha⟩
        obtain ⟨g, hg⟩ := Option.isSome_iff_exists.mp hlastS
        have hlast : lastAcceptedFor cfg (f :: fs) k = lastAcceptedFor cfg fs k := by
          rw [lastAcceptedFor_cons, hg]
        refine ⟨kit, hlk, ?_, ?_, ?_, ?_, ?_⟩
        · rw [hname, hbase']; rfl
        · rw [hid, hbase']; rfl
        · rw [hcomp, hbase']; rfl
        · intro t
          rw [hinstr t, hbase', hlast]
          by_cases ht : t = dir
          · rw [if_pos ht, if_pos ht]
          · rw [if_neg ht, if_neg ht]
            show lookupA (objInsert _ dir _) t = _
            rw [lookupA_objInsert, if_neg (fun h => ht h.symm)]
        · intro x
          rw [havail x, hbase']
          show x ∈ _ ++ [dir] ∨ x = dir ↔ _
          simp [List.mem_append]
    · rw [if_neg hf] at hs'
      have hcnt' : fs.countP (fun g => acceptsKit cfg g k) ≠ 0 := by
        rw [List.countP_cons] at hcnt
        simpa [hf] using hcnt
      obtain ⟨kit, hlk, hname, hid, hcomp, hinstr, havail⟩ := ih (processFile cfg dir s f) k hcnt'
      have hlast : lastAcceptedFor cfg (f :: fs) k = lastAcceptedFor cfg fs k := by
        rw [lastAcceptedFor_cons]
        cases lastAcceptedFor cfg fs k <;> simp [hf]
      rw [hs'] at hname hid hcomp hinstr havail
      exact ⟨kit, hlk, hname, hid, hcomp, fun t => by rw [hinstr t, hlast], havail⟩

theorem foldl_processDir_none (cfg : ScanConfig) (listing : Str → List Str) (ds : List Str) :
    ∀ (s : List (Str × Kit)) (k : Str),
    (∀ t ∈ ds, ∀ f ∈ listing t, ¬ acceptsKit cfg f k = true) →
    lookupA (ds.foldl (processDir cfg listing) s) k = lookupA s k := by
  induction ds with
  | nil => intro s k _; rfl
  | cons d ds ih =>
    intro s k h
    rw [List.foldl_cons]
    have hd : (listing d).countP (fun f => acceptsKit cfg f k) = 0 :=
      List.countP_eq_zero.mpr (fun f hf => h d (List.mem_cons_self d ds) f hf)
    rw [ih _ _ (fun t ht f hf => h t (List.mem_cons_of_mem _ ht) f hf)]
    exact foldl_processFile_none cfg d (listing d) s k hd

theorem foldl_processDir_some (cfg : ScanConfig) (listing : Str → List Str) (ds : List Str) :
    ∀ (s : List (Str × Kit)) (k : Str),
    (∃ t ∈ ds, ∃ f ∈ listing t, acceptsKit cfg f k = true) →
    ∃ kit, lookupA (ds.foldl (processDir cfg listing) s) k = some kit ∧
      kit.name = ((lookupA s k).getD (newKit k)).name ∧
      kit.id = ((lookupA s k).getD (newKit k)).id ∧
      kit.completeness = ((lookupA s k).getD (newKit k)).completeness ∧
      (∀ t, lookupA kit.instruments t =
        if t ∈ ds ∧ ∃ f ∈ listing t, acceptsKit cfg f k = true
        then (lastAcceptedFor cfg (listing t) k).map (fun g => t ++ '/' :: g)
        else lookupA ((lookupA s k).getD (newKit k)).instruments t) ∧
      (∀ x, x ∈ kit.availableInstruments ↔
        x ∈ ((lookupA s k).getD (newKit k)).availableInstruments ∨
        (x ∈ ds ∧ ∃ f ∈ listing x, acceptsKit cfg f k = true)) := by
  induction ds with
  | nil =>
    intro s k h
    obtain ⟨t, ht, _⟩ := h
    exact absurd ht (List.not_mem_nil t)
  | cons d ds ih =>
    intro s k hex
    rw [List.foldl_cons]
    by_cases hd : ∃ f ∈ listing d, acceptsKit cfg f k = true
    · have hdcnt : (listing d).countP (fun f => acceptsKit cfg f k) ≠ 0 := by
        intro h0
        obtain ⟨f, hf, ha⟩ := hd
        exact (List.countP_eq_zero.mp h0) f hf ha
      obtain ⟨kitd, hlkd, hdname, hdid, hdcomp, hdinstr, hdavail⟩ :=
        foldl_processFile_some cfg d (listing d) s k hdcnt
      by_cases hds : ∃ t ∈ ds, ∃ f ∈ listing t, acceptsKit cfg f k = true
      · obtain ⟨kit, hlk, hname, hid, hcomp, hinstr, havail⟩ :=
          ih (processDir cfg listing s d) k hds
        have hbase' : (lookupA (processDir cfg listing s d) k).getD (newKit k) = kitd := by
          rw [show lookupA (processDir cfg listing s d) k = some kitd from hlkd]
          rfl
        refine ⟨kit, hlk, ?_, ?_, ?_, ?_, ?_⟩
        · rw [hname, hbase', hdname]
        · rw [hid, hbase', hdid]
        · rw [hcomp, hbase', hdcomp]
        · intro t
          rw [hinstr t, hbase']
          by_cases htds : t ∈ ds ∧ ∃ f ∈ listing t, acceptsKit cfg f k = true
          · rw [if_pos htds, if_pos ⟨List.mem_cons_of_mem _ htds.1, htds.2⟩]
          · rw [if_neg htds, hdinstr t]
            by_cases htd : t = d
            · subst htd
              rw [if_pos rfl, if_pos ⟨List.mem_cons_self t ds, hd⟩]
            · rw [if_neg htd, if_neg (fun hc => ?_)]
              rcases List.mem_cons.mp hc.1 with rfl | ht'
              · exact htd rfl
              · exact htds ⟨ht', hc.2⟩
        · intro x
          rw [havail x, hbase', hdavail x]
          constructor
          · rintro ((hb | rfl) | ⟨hds', hex'⟩)
            · exact Or.inl hb
            · exact Or.inr ⟨List.mem_cons_self _ _, hd⟩
            · exact Or.inr ⟨List.mem_cons_of_mem _ hds', hex'⟩
          · rintro (hb | ⟨hx, hex'⟩)
            · exact Or.inl (Or.inl hb)
            · rcases List.mem_cons.mp hx with rfl | hx'
              · exact Or.inl (Or.inr rfl)
              · exact Or.inr ⟨hx', hex'⟩
      · rw [foldl_processDir_none cfg listing ds _ k
          (fun t ht f hf ha => hds ⟨t, ht, f, hf, ha⟩)]
        refine ⟨kitd, hlkd, hdname, hdid, hdcomp, ?_, ?_⟩
        · intro t
          rw [hdinstr t]
          by_cases htd : t = d
          · subst htd
            rw [if_pos rfl, if_pos ⟨List.mem_cons_self t ds, hd⟩]
          · rw [if_neg htd, if_neg (fun hc => ?_)]
            rcases List.mem_cons.mp hc.1 with rfl | ht'
            · exact htd rfl
            · exact hds ⟨t, ht', hc.2⟩
        · intro x
          rw [hdavail x]
          constructor
          · rintro (hb | rfl)
            · exact Or.inl hb
            · exact Or.inr ⟨List.mem_cons_self _ _, hd⟩
          · rintro (hb | ⟨hx, hex'⟩)
            · exact Or.inl hb
            · rcases List.mem_cons.mp hx with rfl | hx'
              · exact Or.inr rfl
              · exact absurd ⟨x, hx', hex'⟩ hds
    · have hdcnt : (listing d).countP (fun f => acceptsKit cfg f k) = 0 :=
        List.countP_eq_zero.mpr (fun f hf ha => hd ⟨f, hf, ha⟩)
      have hs' : lookupA (processDir cfg listing s d) k = lookupA s k :=
        foldl_processFile_none cfg d (listing d) s k hdcnt
      have hds : ∃ t ∈ ds, ∃ f ∈ listing t, acceptsKit cfg f k = true := by
        obtain ⟨t, ht, f, hf, ha⟩ := hex
        rcases List.mem_cons.mp ht with rfl | ht'
        · exact absurd ⟨f, hf, ha⟩ hd
        · exact ⟨t, ht', f, hf, ha⟩
      obtain ⟨kit, hlk, hname, hid, hcomp, hinstr, havail⟩ :=
        ih (processDir cfg listing s d) k hds
      rw [hs'] at hname hid hcomp hinstr havail
      refine ⟨kit, hlk, hname, hid, hcomp, ?_, ?_⟩
      · intro t
        rw [hinstr t]
        by_cases htds : t ∈ ds ∧ ∃ f ∈ listing t, acceptsKit cfg f k = true
        · rw [if_pos htds, if_pos ⟨List.mem_cons_of_mem _ htds.1, htds.2⟩]
        · rw [if_neg htds, if_neg (fun hc => ?_)]
          rcases List.mem_cons.mp hc.1 with rfl | ht'
          · exact hd hc.2
          · exact htds ⟨ht', hc.2⟩
      · intro x
        rw [havail x]
        constructor
        · rintro (hb | ⟨hds', hex'⟩)
          · exact Or.inl hb
          · exact Or.inr ⟨List.mem_cons_of_mem _ hds', hex'⟩
        · rintro (hb | ⟨hx, hex'⟩)
          · exact Or.inl hb
          · rcases List.mem_cons.mp hx with rfl | hx'
            · exact absurd hex' hd
            · exact Or.inr ⟨hx', hex'⟩

theorem jsDedup_spec (n : Nat) : ∀ l : List Str, l.length ≤ n →
    ((∀ x, x ∈ jsDedup l ↔ x ∈ l) ∧ (jsDedup l).Nodup) := by
  induction n with
  | zero =>
    intro l hl
    have : l = [] := List.eq_nil_of_length_eq_zero (Nat.le_zero.mp hl)
    subst this
    simp [jsDedup]
  | succ n ih =>
    intro l hl
    match l with
    | [] => simp [jsDedup]
    | a :: t =>
      have hlen : (t.filter (fun b => decide (b ≠ a))).length ≤ n := by
        have h1 := List.length_filter_le (fun b => decide (b ≠ a)) t
        have h2 : t.length ≤ n := by
          simp only [List.length_cons] at hl; omega
        omega
      obtain ⟨hmem, hnd⟩ := ih _ hlen
      rw [jsDedup]
      constructor
      · intro x
        rw [List.mem_cons, hmem x, List.mem_filter, List.mem_cons]
        constructor
        · rintro (rfl | ⟨hx, _⟩)
          · exact Or.inl rfl
          · exact Or.inr hx
        · rintro (rfl | hx')
          · exact Or.inl rfl
          · by_cases hxa : x = a
            · exact Or.inl hxa
            · exact Or.inr ⟨hx', by simpa using hxa⟩
      · rw [List.nodup_cons]
        refine ⟨fun hc => ?_, hnd⟩
        rw [hmem a, List.mem_filter] at hc
        exact (by simpa using hc.2 : a ≠ a) rfl

theorem jsDedup_mem (l : List Str) (x : Str) : x ∈ jsDedup l ↔ x ∈ l :=
  ((jsDedup_spec l.length l le_rfl).1 x)

theorem jsDedup_nodup (l : List Str) : (jsDedup l).Nodup :=
  (jsDedup_spec l.length l le_rfl).2

theorem lookupA_scan (cfg : ScanConfig) (listing : Str → List Str) (k : Str) :
    lookupA (scan cfg listing) k = (lookupA (scanRaw cfg listing) k).map (finalizeKit cfg) := by
  unfold scan
  exact lookupA_mapEntries (fun _ kit => finalizeKit cfg kit) _ k

theorem scan_spec (cfg : ScanConfig) (listing : Str → List Str) (k : Str) :
    (lookupA (scan cfg listing) k = none ↔
      ∀ t ∈ cfg.instruments, ∀ f ∈ listing t, ¬ acceptsKit cfg f k = true) ∧
    (∀ kit, lookupA (scan cfg listing) k = some kit →
      kit.name = k ∧ kit.id = generateId k ∧
      (∀ t, lookupA kit.instruments t =
        if t ∈ cfg.instruments ∧ ∃ f ∈ listing t, acceptsKit cfg f k = true
        then (lastAcceptedFor cfg (listing t) k).map (fun g => t ++ '/' :: g)
        else none) ∧
      kit.availableInstruments.Sorted (· ≤ ·) ∧
      kit.availableInstruments.Nodup ∧
      (∀ x, x ∈ kit.availableInstruments ↔
        x ∈ cfg.instruments ∧ ∃ f ∈ listing x, acceptsKit cfg f k = true) ∧
      kit.completeness =
        (kit.availableInstruments.length : ℚ) / (cfg.instruments.length : ℚ) * 100) := by
  have hmap := lookupA_scan cfg listing k
  constructor
  · rw [hmap]
    by_cases hex : ∃ t ∈ cfg.instruments, ∃ f ∈ listing t, acceptsKit cfg f k = true
    · obtain ⟨kit0, hlk, _⟩ := foldl_processDir_some cfg listing cfg.instruments [] k hex
      rw [show lookupA (scanRaw cfg listing) k = some kit0 from hlk]
      show some (finalizeKit cfg kit0) = none ↔ _
      constructor
      · intro hc; exact Option.noConfusion hc
      · intro hall
        obtain ⟨t, ht, f, hf, ha⟩ := hex
        exact absurd ha (hall t ht f hf)
    · have hall : ∀ t ∈ cfg.instruments, ∀ f ∈ listing t, ¬ acceptsKit cfg f k = true :=
        fun t ht f hf ha => hex ⟨t, ht, f, hf, ha⟩
      rw [show lookupA (scanRaw cfg listing) k = lookupA ([] : List (Str × Kit)) k from
        foldl_processDir_none cfg listing cfg.instruments [] k hall]
      simp only [lookupA, Option.map_none]
      exact ⟨fun _ => hall, fun _ => rfl⟩
  · intro kit hk
    rw [hmap] at hk
    cases hraw : lookupA (scanRaw cfg listing) k with
    | none => rw [hraw] at hk; exact Option.noConfusion hk
    | some kit0 =>
      rw [hraw] at hk
      have hkit : kit = finalizeKit cfg kit0 :=
        (Option.some.inj (show some (finalizeKit cfg kit0) = some kit from hk)).symm
      subst hkit
      by_cases hex : ∃ t ∈ cfg.instruments, ∃ f ∈ listing t, acceptsKit cfg f k = true
      · obtain ⟨kit1, hlk1, hname, hid, hcomp, hinstr, havail⟩ :=
          foldl_processDir_some cfg listing cfg.instruments [] k hex
        have hk10 : kit1 = kit0 := by
          have := (show lookupA (scanRaw cfg listing) k = some kit1 from hlk1).symm.trans hraw
          simpa using this
        subst hk10
        refine ⟨hname, hid, ?_, ?_, ?_, ?_, rfl⟩
        · intro t
          have := hinstr t
          simpa [lookupA] using this
        · exact List.sorted_insertionSort _ _
        · exact ((List.perm_insertionSort _ _).symm).nodup (jsDedup_nodup _)
        · intro x
          show x ∈ List.insertionSort _ (jsDedup kit1.availableInstruments) ↔ _
          rw [(List.perm_insertionSort _ _).mem_iff, jsDedup_mem]
          have := havail x
          simpa [lookupA, newKit] using this
      · have hnone := foldl_processDir_none cfg listing cfg.instruments [] k
          (fun t ht f hf ha => hex ⟨t, ht, f, hf, ha⟩)
        rw [show lookupA (scanRaw cfg listing) k = lookupA ([] : List (Str × Kit)) k from hnone]
          at hraw
        exact Option.noConfusion hraw

theorem fileAccepted_congr (cfg1 cfg2 : ScanConfig)
    (hext : cfg2.fileExtension = cfg1.fileExtension) (f : Str) :
    fileAccepted cfg2 f = fileAccepted cfg1 f := by
  unfold fileAccepted
  rw [hext]

theorem parseFilename_congr (cfg1 cfg2 : ScanConfig)
    (hext : cfg2.fileExtension = cfg1.fileExtension)
    (hmem : ∀ x, x ∈ cfg2.instruments ↔ x ∈ cfg1.instruments) (f : Str) :
    parseFilename cfg2 f = parseFilename cfg1 f := by
  unfold parseFilename
  rw [hext]
  by_cases hs : cfg1.fileExtension <:+ f
  · rw [if_pos hs, if_pos hs]
    cases hsp : splitLastSep (stripExt cfg1.fileExtension f) with
    | none => rfl
    | some pq =>
      obtain ⟨p, q⟩ := pq
      simp only [hsp]
      by_cases hm : toLowerStr (jsTrim q) ∈ cfg1.instruments
      · rw [if_pos ((hmem _).mpr hm), if_pos hm]
      · rw [if_neg (fun hc => hm ((hmem _).mp hc)), if_neg hm]
  · rw [if_neg hs, if_neg hs]

theorem acceptsKit_congr (cfg1 cfg2 : ScanConfig)
    (hext : cfg2.fileExtension = cfg1.fileExtension)
    (hmem : ∀ x, x ∈ cfg2.instruments ↔ x ∈ cfg1.instruments) (f k : Str) :
    acceptsKit cfg2 f k = acceptsKit cfg1 f k := by
  unfold acceptsKit
  rw [fileAccepted_congr cfg1 cfg2 hext, parseFilename_congr cfg1 cfg2 hext hmem]

theorem find?_eq_of_perm_of_unique {α : Type} {p : α → Bool} {l l' : List α}
    (hperm : l.Perm l')
    (huniq : ∀ a ∈ l, ∀ b ∈ l, p a = true → p b = true → a = b) :
    l.find? p = l'.find? p := by
  cases hx : l.find? p with
  | none =>
    rw [List.find?_eq_none] at hx
    symm
    rw [List.find?_eq_none]
    intro x hxl
    exact hx x (hperm.mem_iff.mpr hxl)
  | some a =>
    have hal : a ∈ l := List.mem_of_find?_eq_some hx
    have hpa : p a = true := List.find?_some hx
    cases hy : l'.find? p with
    | none =>
      rw [List.find?_eq_none] at hy
      exact absurd hpa (hy a (hperm.mem_iff.mp hal))
    | some b =>
      have hbl : b ∈ l := hperm.mem_iff.mpr (List.mem_of_find?_eq_some hy)
      have hpb : p b = true := List.find?_some hy
      rw [huniq a hal b hbl hpa hpb]

theorem sorted_nodup_ext {l l' : List Str} (hs : l.Sorted (· ≤ ·)) (hs' : l'.Sorted (· ≤ ·))
    (hn : l.Nodup) (hn' : l'.Nodup) (hm : ∀ x, x ∈ l ↔ x ∈ l') : l = l' :=
  List.eq_of_perm_of_sorted ((List.perm_ext_iff_of_nodup hn hn').mpr hm) hs hs'

theorem scanAgree_of_lastAccepted (cfg1 cfg2 : ScanConfig) (l1 l2 : Str → List Str)
    (hinstr : cfg2.instruments.Perm cfg1.instruments)
    (hext : cfg2.fileExtension = cfg1.fileExtension)
    (hlist : ∀ t, (l2 t).Perm (l1 t))
    (hlast0 : ∀ t ∈ cfg1.instruments, ∀ k,
      lastAcceptedFor cfg2 (l2 t) k = lastAcceptedFor cfg1 (l1 t) k) :
    ∀ k, OptKitAgree (lookupA (scan cfg1 l1) k) (lookupA (scan cfg2 l2) k) := by
  intro k
  have hmem : ∀ x, x ∈ cfg2.instruments ↔ x ∈ cfg1.instruments := fun x => hinstr.mem_iff
  have hacc : ∀ f k', acceptsKit cfg2 f k' = acceptsKit cfg1 f k' :=
    fun f k' => acceptsKit_congr cfg1 cfg2 hext hmem f k'
  have hlast : ∀ t, t ∈ cfg1.instruments →
      lastAcceptedFor cfg2 (l2 t) k = lastAcceptedFor cfg1 (l1 t) k :=
    fun t ht => hlast0 t ht k
  have hexist : ∀ t, ((∃ f ∈ l2 t, acceptsKit cfg2 f k = true) ↔
      (∃ f ∈ l1 t, acceptsKit cfg1 f k = true)) := by
    intro t
    constructor
    · rintro ⟨f, hf, ha⟩
      exact ⟨f, (hlist t).mem_iff.mp hf, (hacc f k) ▸ ha⟩
    · rintro ⟨f, hf, ha⟩
      exact ⟨f, (hlist t).mem_iff.mpr hf, (hacc f k).symm ▸ ha⟩
  obtain ⟨hn1, hsome1⟩ := scan_spec cfg1 l1 k
  obtain ⟨hn2, hsome2⟩ := scan_spec cfg2 l2 k
  have hnone_iff : lookupA (scan cfg1 l1) k = none ↔ lookupA (scan cfg2 l2) k = none := by
    rw [hn1, hn2]
    constructor
    · intro h t ht f hf ha
      exact h t ((hmem t).mp ht) f ((hlist t).mem_iff.mp hf) ((hacc f k) ▸ ha)
    · intro h t ht f hf ha
      exact h t ((hmem t).mpr ht) f ((hlist t).mem_iff.mpr hf) ((hacc f k).symm ▸ ha)
  cases o1 : lookupA (scan cfg1 l1) k with
  | none =>
    rw [hnone_iff.mp o1]
    exact trivial
  | some kit1 =>
    cases o2 : lookupA (scan cfg2 l2) k with
    | none =>
      rw [hnone_iff.mpr o2] at o1
      exact Option.noConfusion o1
    | some kit2 =>
      obtain ⟨hname1, hid1, hinstr1, hsor1, hnd1, hmem1, hcomp1⟩ := hsome1 kit1 o1
      obtain ⟨hname2, hid2, hinstr2, hsor2, hnd2, hmem2, hcomp2⟩ := hsome2 kit2 o2
      have havail : kit1.availableInstruments = kit2.availableInstruments := by
        apply sorted_nodup_ext hsor1 hsor2 hnd1 hnd2
        intro x
        rw [hmem1 x, hmem2 x]
        constructor
        · rintro ⟨hx, hex⟩
          exact ⟨(hmem x).mpr hx, (hexist x).mpr hex⟩
        · rintro ⟨hx, hex⟩
          exact ⟨(hmem x).mp hx, (hexist x).mp hex⟩
      show KitAgree kit1 kit2
      refine ⟨hname1.trans hname2.symm, hid1.trans hid2.symm, ?_, havail, ?_⟩
      · intro t
        rw [hinstr1 t, hinstr2 t]
        by_cases hc : t ∈ cfg1.instruments ∧ ∃ f ∈ l1 t, acceptsKit cfg1 f k = true
        · rw [if_pos hc, if_pos ⟨(hmem t).mpr hc.1, (hexist t).mpr hc.2⟩, hlast t hc.1]
        · rw [if_neg hc, if_neg (fun hc2 => hc ⟨(hmem t).mp hc2.1, (hexist t).mp hc2.2⟩)]
      · rw [hcomp1, hcomp2, havail, hinstr.length_eq]

/-- C1 (amended): permuting the order in which the instrument subdirectories
are scanned never changes the aggregated mapping from kit name to Kit record
— the first conjunct, unconditional: the listings are identical and only the
vocabulary order differs; permuting the files inside the subdirectory
listings also leaves the mapping unchanged provided no two distinct files of
one listing are accepted for the same kit name — the second conjunct.
Without that proviso the within-listing half fails, because the stored path
of a kit instrument is the last accepted write of its directory. -/
theorem C1_scan_order_insensitive (cfg1 cfg2 : ScanConfig) (l1 l2 : Str → List Str)
    (hinstr : cfg2.instruments.Perm cfg1.instruments)
    (hext : cfg2.fileExtension = cfg1.fileExtension)
    (hlist : ∀ t, (l2 t).Perm (l1 t)) :
    ((∀ t, l2 t = l1 t) →
      ∀ k, OptKitAgree (lookupA (scan cfg1 l1) k) (lookupA (scan cfg2 l2) k)) ∧
    ((∀ t ∈ cfg1.instruments, ∀ f ∈ l1 t, ∀ g ∈ l1 t,
        fileAccepted cfg1 f = true → fileAccepted cfg1 g = true →
        (parseFilename cfg1 f).isSome = true →
        (parseFilename cfg1 f).map Prod.fst = (parseFilename cfg1 g).map Prod.fst → f = g) →
      ∀ k, OptKitAgree (lookupA (scan cfg1 l1) k) (lookupA (scan cfg2 l2) k)) := by
  have hmem : ∀ x, x ∈ cfg2.instruments ↔ x ∈ cfg1.instruments := fun x => hinstr.mem_iff
  have hacc : ∀ f k', acceptsKit cfg2 f k' = acceptsKit cfg1 f k' :=
    fun f k' => acceptsKit_congr cfg1 cfg2 hext hmem f k'
  have hpred : ∀ k, (fun f => acceptsKit cfg2 f k) = (fun f => acceptsKit cfg1 f k) :=
    fun k => funext (fun f => hacc f k)
  constructor
  · intro heq
    apply scanAgree_of_lastAccepted cfg1 cfg2 l1 l2 hinstr hext hlist
    intro t _ k
    unfold lastAcceptedFor
    rw [heq t, hpred k]
  · intro huniq
    apply scanAgree_of_lastAccepted cfg1 cfg2 l1 l2 hinstr hext hlist
    intro t ht k
    have huk : ∀ f ∈ l1 t, ∀ g ∈ l1 t,
        acceptsKit cfg1 f k = true → acceptsKit cfg1 g k = true → f = g := by
      intro f hf g hg haf hag
      unfold acceptsKit at haf hag
      rw [Bool.and_eq_true, decide_eq_true_eq] at haf hag
      apply huniq t ht f hf g hg haf.1 hag.1
      · cases hp : parseFilename cfg1 f with
        | none => rw [hp] at haf; exact absurd haf.2 (by simp)
        | some pr => simp [hp]
      · rw [haf.2, hag.2]
    unfold lastAcceptedFor
    rw [hpred k]
    refine (find?_eq_of_perm_of_unique ?_ ?_).symm
    · exact ((l1 t).reverse_perm.trans (hlist t).symm).trans (l2 t).reverse_perm.symm
    · intro a ha b hb hpa hpb
      exact huk a (List.mem_reverse.mp ha) b (List.mem_reverse.mp hb) hpa hpb

theorem OptKitAgree.instrLookup {o1 o2 : Option Kit} (h : OptKitAgree o1 o2) (t : Str) :
    instrLookupOpt o1 t = instrLookupOpt o2 t := by
  cases o1 with
  | none =>
    cases o2 with
    | none => rfl
    | some k2 => exact absurd h (by simp [OptKitAgree])
  | some k1 =>
    cases o2 with
    | none => exact absurd h (by simp [OptKitAgree])
    | some k2 =>
      show (lookupA k1.instruments t) = (lookupA k2.instruments t)
      exact h.2.2.1 t

/-- C1 counterexample: the two distinct files "A - kick.wav" and
"A  - kick.wav" of the kick listing both parse to kit "A"; swapping them in
the listing changes which path survives, so the scan result differs although
one listing is a permutation of the other.  The claim as stated is false. -/
theorem C1_counterexample :
    (∀ t, (listClashRev t).Perm (listClash t)) ∧
    ¬ (∀ k, OptKitAgree (lookupA (scan cfgKick listClash) k)
        (lookupA (scan cfgKick listClashRev) k)) := by
  constructor
  · intro t
    by_cases ht : t = "kick".data
    · simp only [listClash, listClashRev, if_pos ht]
      decide
    · simp [listClash, listClashRev, ht]
  · intro h
    have h2 := (h "A".data).instrLookup "kick".data
    exact absurd h2 (by decide)

/-- Witness for C1 (amended) with the two-instrument vocabulary scanned in
both orders over a two-kit listing, exercising both the unconditional
subdirectory-order conjunct and the no-clash within-listing conjunct. -/
theorem C1_scan_order_insensitive_witness :
    cfgSnareKick.instruments.Perm cfgKickSnare.instruments ∧
    OptKitAgree (lookupA (scan cfgKickSnare listTwoKits) "A".data)
      (lookupA (scan cfgSnareKick listTwoKits) "A".data) ∧
    OptKitAgree (lookupA (scan cfgKickSnare listTwoKits) "B".data)
      (lookupA (scan cfgSnareKick listTwoKits) "B".data) :=
  ⟨by decide,
    (C1_scan_order_insensitive cfgKickSnare cfgSnareKick listTwoKits listTwoKits
      (by decide) (by decide) (fun t => List.Perm.refl _)).1 (fun t => rfl) "A".data,
    (C1_scan_order_insensitive cfgKickSnare cfgSnareKick listTwoKits listTwoKits
      (by decide) (by decide) (fun t => List.Perm.refl _)).2 (by decide) "B".data⟩

/-- C4: every kit produced by aggregation over a duplicate-free vocabulary of
size n has completeness equal to the percentage of available instruments
among n, bounded between 0 and 100, and equal to 100 exactly when the sorted
deduplicated available instruments exhaust the vocabulary as a set. -/
theorem C4_completeness_bounds (cfg : ScanConfig) (listing : Str → List Str) (k : Str)
    (hnd : cfg.instruments.Nodup)
    (h : (lookupA (scan cfg listing) k).isSome = true) :
    completenessOf (lookupA (scan cfg listing) k) =
      ((availOf (lookupA (scan cfg listing) k)).length : ℚ) /
        (cfg.instruments.length : ℚ) * 100 ∧
    0 ≤ completenessOf (lookupA (scan cfg listing) k) ∧
    completenessOf (lookupA (scan cfg listing) k) ≤ 100 ∧
    (completenessOf (lookupA (scan cfg listing) k) = 100 ↔
      ∀ x, x ∈ availOf (lookupA (scan cfg listing) k) ↔ x ∈ cfg.instruments) := by
  obtain ⟨kit, hk⟩ := Option.isSome_iff_exists.mp h
  obtain ⟨hname, hid, hinstrF, hsor, hndA, hmemA, hcomp⟩ := (scan_spec cfg listing k).2 kit hk
  have hne : ¬ (lookupA (scan cfg listing) k = none) := by rw [hk]; simp
  rw [(scan_spec cfg listing k).1] at hne
  push_neg at hne
  obtain ⟨t0, ht0, -⟩ := hne
  have hnpos : 0 < cfg.instruments.length := List.length_pos.mpr (List.ne_nil_of_mem ht0)
  have hnQ : (0 : ℚ) < (cfg.instruments.length : ℚ) := by exact_mod_cast hnpos
  have hsub : kit.availableInstruments.toFinset ⊆ cfg.instruments.toFinset := by
    intro x hx
    rw [List.mem_toFinset] at hx ⊢
    exact ((hmemA x).mp hx).1
  have hcard1 : kit.availableInstruments.toFinset.card = kit.availableInstruments.length :=
    List.toFinset_card_of_nodup hndA
  have hcard2 : cfg.instruments.toFinset.card = cfg.instruments.length :=
    List.toFinset_card_of_nodup hnd
  have hmn : kit.availableInstruments.length ≤ cfg.instruments.length := by
    rw [← hcard1, ← hcard2]
    exact Finset.card_le_card hsub
  have hco : completenessOf (lookupA (scan cfg listing) k) = kit.completeness := by
    rw [hk]; rfl
  have hav : availOf (lookupA (scan cfg listing) k) = kit.availableInstruments := by
    rw [hk]; rfl
  rw [hco, hav, hcomp]
  have hfrac : ((kit.availableInstruments.length : ℚ) / (cfg.instruments.length : ℚ)) ≤ 1 := by
    rw [div_le_one hnQ]
    exact_mod_cast hmn
  refine ⟨rfl, ?_, ?_, ?_⟩
  · apply mul_nonneg
    · apply div_nonneg
      · exact_mod_cast Nat.zero_le _
      · exact le_of_lt hnQ
    · norm_num
  · calc (kit.availableInstruments.length : ℚ) / (cfg.instruments.length : ℚ) * 100
        ≤ 1 * 100 := by
          apply mul_le_mul_of_nonneg_right hfrac
          norm_num
      _ = 100 := by norm_num
  · constructor
    · intro h100 x
      have hdiv : ((kit.availableInstruments.length : ℚ) / (cfg.instruments.length : ℚ)) = 1 := by
        have : ((kit.availableInstruments.length : ℚ) / (cfg.instruments.length : ℚ)) * 100 =
            1 * 100 := by rw [h100]; norm_num
        exact mul_right_cancel₀ (by norm_num : (100 : ℚ) ≠ 0) this
      rw [div_eq_one_iff_eq (ne_of_gt hnQ)] at hdiv
      have hlen : kit.availableInstruments.length = cfg.instruments.length := by
        exact_mod_cast hdiv
      have hfeq : kit.availableInstruments.toFinset = cfg.instruments.toFinset := by
        apply Finset.eq_of_subset_of_card_le hsub
        rw [hcard1, hcard2, hlen]
      constructor
      · intro hx
        have := hfeq ▸ (List.mem_toFinset.mpr hx)
        exact List.mem_toFinset.mp this
      · intro hx
        have : x ∈ kit.availableInstruments.toFinset := by
          rw [hfeq]
          exact List.mem_toFinset.mpr hx
        exact List.mem_toFinset.mp this
    · intro hiff
      have hfeq : kit.availableInstruments.toFinset = cfg.instruments.toFinset := by
        ext x
        rw [List.mem_toFinset, List.mem_toFinset]
        exact hiff x
      have hlen : kit.availableInstruments.length = cfg.instruments.length := by
        rw [← hcard1, ← hcard2, hfeq]
      rw [hlen, div_self (ne_of_gt hnQ)]
      norm_num

/-- Witness for C4 at a two-instrument vocabulary where kit A supplies only a
kick sample. -/
theorem C4_completeness_bounds_witness :
    cfgKickSnare.instruments.Nodup ∧
    (lookupA (scan cfgKickSnare listOneKick) "A".data).isSome = true ∧
    0 ≤ completenessOf (lookupA (scan cfgKickSnare listOneKick) "A".data) ∧
    completenessOf (lookupA (scan cfgKickSnare listOneKick) "A".data) ≤ 100 :=
  ⟨by decide, by decide,
    (C4_completeness_bounds cfgKickSnare listOneKick "A".data (by decide) (by decide)).2.1,
    (C4_completeness_bounds cfgKickSnare listOneKick "A".data (by decide) (by decide)).2.2.1⟩

theorem keysOf_processFile (cfg : ScanConfig) (dir : Str) (s : List (Str × Kit)) (f : Str) :
    keysOf (processFile cfg dir s f) = keysOf s ∨
    ∃ k, lookupA s k = none ∧ keysOf (processFile cfg dir s f) = keysOf s ++ [k] := by
  unfold processFile
  by_cases hacc : fileAccepted cfg f
  · rw [if_pos hacc]
    cases hp : parseFilename cfg f with
    | none => exact Or.inl rfl
    | some pr =>
      obtain ⟨kn, inst⟩ := pr
      simp only []
      by_cases hex : (lookupA s kn).isSome
      · rw [if_pos hex, keysOf_updateKit]
        exact Or.inl rfl
      · have hnone : lookupA s kn = none := by
          cases h : lookupA s kn
          · rfl
          · exact absurd (by simp [h]) hex
        rw [if_neg hex, keysOf_updateKit, keysOf_append]
        exact Or.inr ⟨kn, hnone, by simp [keysOf]⟩
  · rw [if_neg hacc]
    exact Or.inl rfl

theorem keysOf_processFile_nodup (cfg : ScanConfig) (dir : Str) (s : List (Str × Kit)) (f : Str)
    (hn : (keysOf s).Nodup) : (keysOf (processFile cfg dir s f)).Nodup := by
  rcases keysOf_processFile cfg dir s f with h | ⟨k, hk, h⟩
  · rw [h]; exact hn
  · rw [h, List.nodup_append]
    refine ⟨hn, List.nodup_singleton k, ?_⟩
    intro a ha hb
    rw [List.mem_singleton] at hb
    subst hb
    exact (lookupA_eq_none_iff s a).mp hk ha

theorem keysOf_foldl_processFile_nodup (cfg : ScanConfig) (dir : Str) (fs : List Str) :
    ∀ s : List (Str × Kit), (keysOf s).Nodup →
    (keysOf (fs.foldl (processFile cfg dir) s)).Nodup := by
  induction fs with
  | nil => intro s hn; exact hn
  | cons f fs ih =>
    intro s hn
    rw [List.foldl_cons]
    exact ih _ (keysOf_processFile_nodup cfg dir s f hn)

theorem keysOf_scanRaw_nodup (cfg : ScanConfig) (listing : Str → List Str) :
    (keysOf (scanRaw cfg listing)).Nodup := by
  unfold scanRaw
  have hgen : ∀ (ds : List Str) (s : List (Str × Kit)), (keysOf s).Nodup →
      (keysOf (ds.foldl (processDir cfg listing) s)).Nodup := by
    intro ds
    induction ds with
    | nil => intro s hn; exact hn
    | cons d ds ih =>
      intro s hn
      rw [List.foldl_cons]
      exact ih _ (keysOf_foldl_processFile_nodup cfg d (listing d) s hn)
  exact hgen cfg.instruments [] (by simp [keysOf])

theorem keysOf_scan_nodup (cfg : ScanConfig) (listing : Str → List Str) :
    (keysOf (scan cfg listing)).Nodup := by
  unfold scan
  rw [keysOf_mapEntries (fun _ kit => finalizeKit cfg kit)]
  exact keysOf_scanRaw_nodup cfg listing

/-- C7 (amended): within one generated manifest, the kit ids are pairwise
distinct, provided the slug function is injective on the scanned kit names.
Without that proviso the claim fails: two distinct names can collapse to the
same slug, and the builder does not detect the collision. -/
theorem C7_ids_unique (cfg : ScanConfig) (listing : Str → List Str) (generated : Str)
    (hinj : ∀ e1 ∈ scan cfg listing, ∀ e2 ∈ scan cfg listing,
      generateId e1.1 = generateId e2.1 → e1.1 = e2.1) :
    (generateManifest cfg generated (scan cfg listing)).soundkits.Pairwise
      (fun a b => a.id ≠ b.id) := by
  have hkeys : (keysOf (scan cfg listing)).Nodup := keysOf_scan_nodup cfg listing
  have hid : ∀ e ∈ scan cfg listing, e.2.id = generateId e.1 := by
    intro e he
    have hlk : lookupA (scan cfg listing) e.1 = some e.2 :=
      lookupA_of_mem_nodup (by exact he) hkeys
    obtain ⟨-, hid, -⟩ := (scan_spec cfg listing e.1).2 e.2 hlk
    exact hid
  have hpw : (scan cfg listing).Pairwise (fun e1 e2 => e1.1 ≠ e2.1) := by
    have h1 : (keysOf (scan cfg listing)).Pairwise (fun a b => a ≠ b) := hkeys
    exact List.pairwise_map.mp h1
  have hpw2 : (scan cfg listing).Pairwise (fun e1 e2 => e1.2.id ≠ e2.2.id) := by
    apply hpw.imp_of_mem
    intro a b ha hb hne hideq
    rw [hid a ha, hid b hb] at hideq
    exact hne (hinj a ha b hb hideq)
  have hpw3 : ((scan cfg listing).map Prod.snd).Pairwise (fun a b : Kit => a.id ≠ b.id) :=
    List.pairwise_map.mpr hpw2
  show (List.insertionSort _ ((scan cfg listing).map Prod.snd)).Pairwise _
  exact ((List.perm_insertionSort _ _).pairwise_iff (fun h => h.symm)).mpr hpw3

/-- C7 counterexample: the kit names "My Kit" and "My-Kit" are distinct but
both slug to "my-kit"; the generated manifest carries two kits with the same
id, so id uniqueness fails as stated. -/
theorem C7_counterexample :
    ¬ (generateManifest cfgKick "".data (scan cfgKick listSlugClash)).soundkits.Pairwise
        (fun a b => a.id ≠ b.id) := by
  intro h
  have hnd : (((generateManifest cfgKick "".data
      (scan cfgKick listSlugClash)).soundkits.map Kit.id)).Pairwise
      (fun a b => a ≠ b) :=
    List.Pairwise.map Kit.id (fun a b hab => hab) h
  have hids : ((generateManifest cfgKick "".data
      (scan cfgKick listSlugClash)).soundkits.map Kit.id) =
      ["my-kit".data, "my-kit".data] := by decide
  rw [hids] at hnd
  exact (by decide : ¬ (["my-kit".data, "my-kit".data].Pairwise (fun a b => a ≠ b))) hnd

/-- Witness for C7 (amended) with two kits whose slugs stay distinct. -/
theorem C7_ids_unique_witness :
    (∀ e1 ∈ scan cfgKick listTwoKits, ∀ e2 ∈ scan cfgKick listTwoKits,
      generateId e1.1 = generateId e2.1 → e1.1 = e2.1) ∧
    (generateManifest cfgKick "".data (scan cfgKick listTwoKits)).soundkits.Pairwise
      (fun a b => a.id ≠ b.id) :=
  ⟨by decide, C7_ids_unique cfgKick listTwoKits "".data (by decide)⟩

theorem keysOf_bumpCoverage (cov : List (Str × Nat)) (t : Str) :
    keysOf (bumpCoverage cov t) = keysOf cov := by
  unfold bumpCoverage
  exact keysOf_mapEntries (fun a b => if a = t then b + 1 else b) cov

theorem bumpCoverage_not_mem (cov : List (Str × Nat)) (t : Str)
    (h : t ∉ keysOf cov) : bumpCoverage cov t = cov := by
  induction cov with
  | nil => rfl
  | cons e rest ih =>
    obtain ⟨a, b⟩ := e
    simp only [keysOf, List.map_cons, List.mem_cons] at h
    push_neg at h
    unfold bumpCoverage
    simp only [List.map_cons]
    rw [if_neg (fun hc => h.1 hc.symm)]
    have := ih (by simpa [keysOf] using h.2)
    unfold bumpCoverage at this
    rw [this]

theorem bumpCoverage_sum (cov : List (Str × Nat)) (t : Str)
    (hnd : (keysOf cov).Nodup) (h : t ∈ keysOf cov) :
    ((bumpCoverage cov t).map Prod.snd).sum = ((cov.map Prod.snd).sum) + 1 := by
  induction cov with
  | nil => simp [keysOf] at h
  | cons e rest ih =>
    obtain ⟨a, b⟩ := e
    simp only [keysOf, List.map_cons, List.nodup_cons] at hnd
    rw [keysOf] at ih
    unfold bumpCoverage
    simp only [List.map_cons]
    by_cases hat : a = t
    · subst hat
      rw [if_pos rfl]
      have hrest : bumpCoverage rest a = rest := bumpCoverage_not_mem rest a (by
        intro hc
        exact hnd.1 (by simpa [keysOf] using hc))
      unfold bumpCoverage at hrest
      rw [hrest]
      simp only [List.map_cons, List.sum_cons]
      omega
    · rw [if_neg hat]
      have ht : t ∈ keysOf rest := by
        simp only [keysOf, List.map_cons, List.mem_cons] at h
        rcases h with h | h
        · exact absurd h.symm hat
        · exact h
      have := ih hnd.2 ht
      unfold bumpCoverage at this
      simp only [List.map_cons, List.sum_cons]
      omega

theorem bump_foldl (avail : List Str) : ∀ st : Stats,
    (keysOf st.instrumentCoverage).Nodup →
    (∀ t ∈ avail, t ∈ keysOf st.instrumentCoverage) →
    (((avail.foldl statsBump st).instrumentCoverage.map Prod.snd).sum + st.totalFiles =
      (st.instrumentCoverage.map Prod.snd).sum + (avail.foldl statsBump st).totalFiles) ∧
    (avail.foldl statsBump st).completeSoundkits = st.completeSoundkits ∧
    (avail.foldl statsBump st).averageCompleteness = st.averageCompleteness ∧
    keysOf (avail.foldl statsBump st).instrumentCoverage = keysOf st.instrumentCoverage := by
  induction avail with
  | nil => intro st _ _; exact ⟨rfl, rfl, rfl, rfl⟩
  | cons i rest ih =>
    intro st hnd hmem
    rw [List.foldl_cons]
    have hkeys1 : keysOf (statsBump st i).instrumentCoverage = keysOf st.instrumentCoverage := by
      unfold statsBump
      exact keysOf_bumpCoverage st.instrumentCoverage i
    have hnd1 : (keysOf (statsBump st i).instrumentCoverage).Nodup := by rw [hkeys1]; exact hnd
    have hmem1 : ∀ t ∈ rest, t ∈ keysOf (statsBump st i).instrumentCoverage := by
      intro t ht; rw [hkeys1]; exact hmem t (List.mem_cons_of_mem _ ht)
    obtain ⟨hsum, hcs, hav, hkeys⟩ := ih (statsBump st i) hnd1 hmem1
    have hsum1 : ((statsBump st i).instrumentCoverage.map Prod.snd).sum =
        (st.instrumentCoverage.map Prod.snd).sum + 1 := by
      unfold statsBump
      exact bumpCoverage_sum st.instrumentCoverage i hnd (hmem i (List.mem_cons_self i rest))
    have htot1 : (statsBump st i).totalFiles = st.totalFiles + 1 := rfl
    refine ⟨?_, hcs, hav, by rw [hkeys, hkeys1]⟩
    rw [hsum1, htot1] at hsum
    omega

theorem statsFold_foldl (kits : List Kit) : ∀ st : Stats,
    (keysOf st.instrumentCoverage).Nodup →
    (∀ kit ∈ kits, ∀ t ∈ kit.availableInstruments, t ∈ keysOf st.instrumentCoverage) →
    (((kits.foldl statsFold st).instrumentCoverage.map Prod.snd).sum + st.totalFiles =
      (st.instrumentCoverage.map Prod.snd).sum + (kits.foldl statsFold st).totalFiles) ∧
    (kits.foldl statsFold st).completeSoundkits =
      st.completeSoundkits + kits.countP (fun kit => decide (kit.completeness = 100)) ∧
    (kits.foldl statsFold st).averageCompleteness = st.averageCompleteness ∧
    keysOf (kits.foldl statsFold st).instrumentCoverage = keysOf st.instrumentCoverage := by
  induction kits with
  | nil => intro st _ _; exact ⟨rfl, rfl, rfl, rfl⟩
  | cons kit rest ih =>
    intro st hnd hmem
    rw [List.foldl_cons]
    obtain ⟨hsumB, hcsB, havB, hkeysB⟩ :=
      bump_foldl kit.availableInstruments st hnd
        (fun t ht => hmem kit (List.mem_cons_self kit rest) t ht)
    have hstep : ∃ st1, statsFold st kit = st1 ∧
        st1.instrumentCoverage = (kit.availableInstruments.foldl statsBump st).instrumentCoverage ∧
        st1.totalFiles = (kit.availableInstruments.foldl statsBump st).totalFiles ∧
        st1.averageCompleteness = (kit.availableInstruments.foldl statsBump st).averageCompleteness ∧
        st1.completeSoundkits = (kit.availableInstruments.foldl statsBump st).completeSoundkits +
          (if kit.completeness = 100 then 1 else 0) := by
      unfold statsFold
      by_cases hc : kit.completeness = 100
      · rw [if_pos hc]
        exact ⟨_, rfl, rfl, rfl, rfl, by rw [if_pos hc]⟩
      · rw [if_neg hc]
        exact ⟨_, rfl, rfl, rfl, rfl, by rw [if_neg hc]; omega⟩
    obtain ⟨st1, hst1, hcov1, htot1, hav1, hcs1⟩ := hstep
    rw [hst1]
    have hnd1 : (keysOf st1.instrumentCoverage).Nodup := by
      rw [hcov1, hkeysB]; exact hnd
    have hmem1 : ∀ k ∈ rest, ∀ t ∈ k.availableInstruments, t ∈ keysOf st1.instrumentCoverage := by
      intro k hk t ht
      rw [hcov1, hkeysB]
      exact hmem k (List.mem_cons_of_mem _ hk) t ht
    obtain ⟨hsum, hcs, hav, hkeys⟩ := ih st1 hnd1 hmem1
    refine ⟨?_, ?_, ?_, ?_⟩
    · rw [hcov1, htot1] at hsum
      omega
    · rw [hcs, hcs1, hcsB, List.countP_cons]
      simp only [decide_eq_true_eq]
      omega
    · rw [hav, hav1, havB]
    · rw [hkeys, hcov1, hkeysB]

theorem lookupA_covInit (instruments : List Str) : ∀ (m : List (Str × Nat)) (t : Str),
    lookupA (instruments.foldl (fun m i => objInsert m i 0) m) t =
      if t ∈ instruments then some 0 else lookupA m t := by
  induction instruments with
  | nil => intro m t; simp
  | cons i is ih =>
    intro m t
    rw [List.foldl_cons, ih]
    by_cases ht : t ∈ is
    · rw [if_pos ht, if_pos (List.mem_cons_of_mem i ht)]
    · rw [if_neg ht, lookupA_objInsert]
      by_cases hti : i = t
      · subst hti
        rw [if_pos rfl, if_pos (List.mem_cons_self i is)]
      · rw [if_neg hti, if_neg (fun hc => by
          rcases List.mem_cons.mp hc with h | h
          · exact hti h.symm
          · exact ht h)]

theorem covInit_values (instruments : List Str) : ∀ m : List (Str × Nat),
    (∀ e ∈ m, e.2 = 0) →
    ∀ e ∈ instruments.foldl (fun m i => objInsert m i 0) m, e.2 = 0 := by
  induction instruments with
  | nil => intro m hm; exact hm
  | cons i is ih =>
    intro m hm
    rw [List.foldl_cons]
    apply ih
    intro e he
    unfold objInsert at he
    by_cases hs : (lookupA m i).isSome
    · rw [if_pos hs] at he
      obtain ⟨e0, he0, rfl⟩ := List.mem_map.mp he
      by_cases h0 : e0.1 = i <;> simp [h0, hm e0 he0]
    · rw [if_neg hs] at he
      rcases List.mem_append.mp he with h | h
      · exact hm e h
      · rw [List.mem_singleton] at h
        subst h
        rfl

theorem covInit_keys_nodup (instruments : List Str) : ∀ m : List (Str × Nat),
    (keysOf m).Nodup →
    (keysOf (instruments.foldl (fun m i => objInsert m i 0) m)).Nodup := by
  induction instruments with
  | nil => intro m hm; exact hm
  | cons i is ih =>
    intro m hm
    rw [List.foldl_cons]
    apply ih
    rw [keysOf_objInsert]
    by_cases hs : (lookupA m i).isSome
    · rw [if_pos hs]; exact hm
    · rw [if_neg hs, List.nodup_append]
      refine ⟨hm, List.nodup_singleton i, ?_⟩
      intro a ha hb
      rw [List.mem_singleton] at hb
      subst hb
      have hnone : lookupA m a = none := by
        cases h : lookupA m a with
        | none => rfl
        | some v => exact absurd (by rw [h]; rfl : (lookupA m a).isSome = true) hs
      exact (lookupA_eq_none_iff m a).mp hnone ha

theorem foldl_add_comp (kits : List Kit) : ∀ a : ℚ,
    kits.foldl (fun sum kit => sum + kit.completeness) a = a + (kits.map Kit.completeness).sum := by
  induction kits with
  | nil => intro a; simp
  | cons kit rest ih =>
    intro a
    rw [List.foldl_cons, ih, List.map_cons, List.sum_cons]
    ring

theorem scan_values_avail_sub (cfg : ScanConfig) (listing : Str → List Str) :
    ∀ kit ∈ (scan cfg listing).map Prod.snd,
    ∀ t ∈ kit.availableInstruments, t ∈ cfg.instruments := by
  intro kit hk t ht
  obtain ⟨e, he, rfl⟩ := List.mem_map.mp hk
  have hlk : lookupA (scan cfg listing) e.1 = some e.2 :=
    lookupA_of_mem_nodup (by exact he) (keysOf_scan_nodup cfg listing)
  obtain ⟨-, -, -, -, -, hmemA, -⟩ := (scan_spec cfg listing e.1).2 e.2 hlk
  exact ((hmemA t).mp ht).1

theorem generateStatistics_spec (cfg : ScanConfig) (kits : List Kit)
    (hsub : ∀ kit ∈ kits, ∀ t ∈ kit.availableInstruments, t ∈ cfg.instruments) :
    (((generateStatistics cfg kits).instrumentCoverage.map Prod.snd).sum =
      (generateStatistics cfg kits).totalFiles) ∧
    ((generateStatistics cfg kits).completeSoundkits =
      kits.countP (fun kit => decide (kit.completeness = 100))) ∧
    (∀ t ∈ cfg.instruments,
      (lookupA (generateStatistics cfg kits).instrumentCoverage t).isSome = true) ∧
    ((generateStatistics cfg kits).averageCompleteness =
      if kits = [] then 0 else (kits.map Kit.completeness).sum / (kits.length : ℚ)) := by
  have hinitK : (keysOf (cfg.instruments.foldl (fun m i => objInsert m i 0)
      ([] : List (Str × Nat)))).Nodup :=
    covInit_keys_nodup cfg.instruments [] (by simp [keysOf])
  have hinitMem : ∀ t ∈ cfg.instruments,
      t ∈ keysOf (cfg.instruments.foldl (fun m i => objInsert m i 0) ([] : List (Str × Nat))) := by
    intro t ht
    rw [← lookupA_isSome_iff, lookupA_covInit, if_pos ht]
    rfl
  have hinit0 : ((cfg.instruments.foldl (fun m i => objInsert m i 0)
      ([] : List (Str × Nat))).map Prod.snd).sum = 0 := by
    apply List.sum_eq_zero
    intro x hx
    obtain ⟨e, he, rfl⟩ := List.mem_map.mp hx
    exact covInit_values cfg.instruments [] (by simp) e he
  obtain ⟨hsum, hcs, hav, hkeys⟩ := statsFold_foldl kits
    { totalFiles := 0,
      instrumentCoverage := cfg.instruments.foldl (fun m i => objInsert m i 0) [],
      completeSoundkits := 0, averageCompleteness := 0 }
    hinitK (fun kit hk t ht => hinitMem t (hsub kit hk t ht))
  have h1 : (Stats.mk 0 (cfg.instruments.foldl (fun m i => objInsert m i 0) []) 0 0).totalFiles
      = 0 := rfl
  have h2 : (Stats.mk 0 (cfg.instruments.foldl (fun m i => objInsert m i 0) []) 0
      0).instrumentCoverage = cfg.instruments.foldl (fun m i => objInsert m i 0) [] := rfl
  have h3 : (Stats.mk 0 (cfg.instruments.foldl (fun m i => objInsert m i 0) []) 0
      0).completeSoundkits = 0 := rfl
  rw [h1, h2, hinit0] at hsum
  rw [h3] at hcs
  rw [h2] at hkeys
  refine ⟨?_, ?_, ?_, ?_⟩
  · show ((kits.foldl statsFold _).instrumentCoverage.map Prod.snd).sum =
      (kits.foldl statsFold _).totalFiles
    omega
  · show (kits.foldl statsFold _).completeSoundkits = _
    rw [hcs]
    omega
  · intro t ht
    show (lookupA (kits.foldl statsFold _).instrumentCoverage t).isSome = true
    rw [lookupA_isSome_iff, hkeys]
    exact hinitMem t ht
  · show (if kits.length > 0
        then kits.foldl (fun sum kit => sum + kit.completeness) 0 / (kits.length : ℚ)
        else 0) = _
    cases kits with
    | nil => simp
    | cons kit rest =>
      rw [if_pos (by simp), if_neg (by simp)]
      rw [foldl_add_comp, zero_add]

/-- C5: for every vocabulary and aggregated kit set, the generated statistics
satisfy: the coverage counts sum to totalFiles, completeSoundkits counts the
kits with completeness 100, every vocabulary tag has a coverage entry, and
averageCompleteness is the arithmetic mean of the kits' completeness values;
for the empty kit set every count is 0, every coverage entry is 0 and the
average is 0. -/
theorem C5_statistics_consistent (cfg : ScanConfig) (listing : Str → List Str)
    (generated : Str) :
    ((((generateManifest cfg generated (scan cfg listing)).statistics.instrumentCoverage.map
        Prod.snd).sum =
      (generateManifest cfg generated (scan cfg listing)).statistics.totalFiles) ∧
     ((generateManifest cfg generated (scan cfg listing)).statistics.completeSoundkits =
      (generateManifest cfg generated (scan cfg listing)).soundkits.countP
        (fun kit => decide (kit.completeness = 100))) ∧
     (∀ t ∈ cfg.instruments,
       (lookupA (generateManifest cfg generated
         (scan cfg listing)).statistics.instrumentCoverage t).isSome = true) ∧
     ((generateManifest cfg generated (scan cfg listing)).statistics.averageCompleteness =
       if (generateManifest cfg generated (scan cfg listing)).soundkits = [] then 0
       else (((generateManifest cfg generated (scan cfg listing)).soundkits.map
         Kit.completeness).sum /
         (((generateManifest cfg generated (scan cfg listing)).soundkits.length : ℚ))))) ∧
    ((((generateStatistics cfg []).instrumentCoverage.map Prod.snd).sum = 0) ∧
     (generateStatistics cfg []).totalFiles = 0 ∧
     (generateStatistics cfg []).completeSoundkits = 0 ∧
     (generateStatistics cfg []).averageCompleteness = 0 ∧
     (∀ t ∈ cfg.instruments,
       lookupA (generateStatistics cfg []).instrumentCoverage t = some 0)) := by
  constructor
  · have hsub : ∀ kit ∈ (generateManifest cfg generated (scan cfg listing)).soundkits,
        ∀ t ∈ kit.availableInstruments, t ∈ cfg.instruments := by
      intro kit hk t ht
      have hk' : kit ∈ ((scan cfg listing).map Prod.snd) :=
        (List.perm_insertionSort _ _).mem_iff.mp hk
      exact scan_values_avail_sub cfg listing kit hk' t ht
    exact generateStatistics_spec cfg
      (generateManifest cfg generated (scan cfg listing)).soundkits hsub
  · refine ⟨?_, rfl, rfl, rfl, ?_⟩
    · apply List.sum_eq_zero
      intro x hx
      obtain ⟨e, he, rfl⟩ := List.mem_map.mp hx
      exact covInit_values cfg.instruments [] (by simp) e he
    · intro t ht
      show lookupA (cfg.instruments.foldl (fun m i => objInsert m i 0) []) t = some 0
      rw [lookupA_covInit, if_pos ht]

theorem insertionSort_filter_stable (r : Kit → Kit → Prop) [DecidableRel r] (q : ℚ)
    (hpass : ∀ a b : Kit, ¬ r a b → a.completeness = q → b.completeness ≠ q) :
    ∀ l : List Kit,
    (List.insertionSort r l).filter (fun kit => decide (kit.completeness = q)) =
      l.filter (fun kit => decide (kit.completeness = q)) := by
  intro l
  induction l with
  | nil => rfl
  | cons x l ih =>
    rw [List.insertionSort, List.orderedInsert_eq_take_drop, List.filter_append]
    have hsplit : (List.takeWhile (fun b => decide ¬ r x b) (List.insertionSort r l)).filter
          (fun kit => decide (kit.completeness = q)) ++
        (List.dropWhile (fun b => decide ¬ r x b) (List.insertionSort r l)).filter
          (fun kit => decide (kit.completeness = q)) =
        (List.insertionSort r l).filter (fun kit => decide (kit.completeness = q)) := by
      rw [← List.filter_append, List.takeWhile_append_dropWhile]
    by_cases hx : x.completeness = q
    · have htake : (List.takeWhile (fun b => decide ¬ r x b) (List.insertionSort r l)).filter
          (fun kit => decide (kit.completeness = q)) = [] := by
        rw [List.filter_eq_nil_iff]
        intro a ha
        have hpa := List.mem_takeWhile_imp ha
        simp only [decide_eq_true_eq] at hpa ⊢
        exact hpass x a hpa hx
      rw [htake, List.nil_append,
        List.filter_cons_of_pos (by simp [hx]), List.filter_cons_of_pos (by simp [hx])]
      rw [htake, List.nil_append] at hsplit
      rw [hsplit, ih]
    · rw [List.filter_cons_of_neg (by simp [hx]), List.filter_cons_of_neg (by simp [hx])]
      rw [hsplit, ih]

/-- C9: getSoundkitsByCompleteness returns the soundkits sorted by
completeness in the requested direction, as a permutation of the manifest's
stored sequence; the sort is stable (kits of equal completeness keep their
stored relative order), and the stored sequence itself is not mutated — the
source sorts a spread copy, embedded here as a pure sort of the stored list,
which the result leaves untouched. -/
theorem C9_sort_by_completeness (m : Manifest) (ob os : Option Str) (ascending : Bool) :
    (getSoundkitsByCompleteness (mkManager m ob os) ascending).Sorted
      (fun a b : Kit => if ascending then a.completeness ≤ b.completeness
                        else b.completeness ≤ a.completeness) ∧
    (getSoundkitsByCompleteness (mkManager m ob os) ascending).Perm m.soundkits ∧
    (∀ q : ℚ, (getSoundkitsByCompleteness (mkManager m ob os) ascending).filter
        (fun kit => decide (kit.completeness = q)) =
      m.soundkits.filter (fun kit => decide (kit.completeness = q))) := by
  haveI htot : IsTotal Kit
      (fun a b : Kit => if ascending then a.completeness ≤ b.completeness
                        else b.completeness ≤ a.completeness) := by
    constructor
    intro a b
    cases ascending
    · simp only [if_neg Bool.false_ne_true]
      exact le_total b.completeness a.completeness
    · simp only [if_pos rfl]
      exact le_total a.completeness b.completeness
  haveI htr : IsTrans Kit
      (fun a b : Kit => if ascending then a.completeness ≤ b.completeness
                        else b.completeness ≤ a.completeness) := by
    constructor
    intro a b c hab hbc
    cases ascending
    · simp only [if_neg Bool.false_ne_true] at hab hbc ⊢
      exact le_trans hbc hab
    · simp only [if_pos rfl] at hab hbc ⊢
      exact le_trans hab hbc
  refine ⟨List.sorted_insertionSort _ _, List.perm_insertionSort _ _, ?_⟩
  intro q
  apply insertionSort_filter_stable
  intro a b hnr ha hb
  cases ascending
  · simp only [if_neg Bool.false_ne_true] at hnr
    rw [ha, hb] at hnr
    exact hnr le_rfl
  · simp only [if_pos rfl] at hnr
    rw [ha, hb] at hnr
    exact hnr le_rfl

/-- C8 (amended): getSampleUrl is total (never raises) and returns none when
the kit id is unknown, when the kit has no instruments entry for the tag, or
when the stored path is the empty string (the falsy test of the source also
rejects an empty path — this case the original claim missed); otherwise it
returns baseUrl/samplesPath/relativePath when the manager's baseUrl is
non-empty, and samplesPath/relativePath when it is empty, with relativePath
exactly the stored path. -/
theorem C8_getSampleUrl (m : Manifest) (ob os : Option Str) (kid inst : Str) :
    (getSoundkit (mkManager m ob os) kid = none →
      getSampleUrl (mkManager m ob os) kid inst = none) ∧
    (∀ kit, getSoundkit (mkManager m ob os) kid = some kit →
      lookupA kit.instruments inst = none →
      getSampleUrl (mkManager m ob os) kid inst = none) ∧
    (∀ kit, getSoundkit (mkManager m ob os) kid = some kit →
      lookupA kit.instruments inst = some [] →
      getSampleUrl (mkManager m ob os) kid inst = none) ∧
    (∀ kit p, getSoundkit (mkManager m ob os) kid = some kit →
      lookupA kit.instruments inst = some p → p ≠ [] →
      getSampleUrl (mkManager m ob os) kid inst =
        some (if (mkManager m ob os).baseUrl ≠ []
          then (mkManager m ob os).baseUrl ++ '/' ::
            ((mkManager m ob os).samplesPath ++ '/' :: p)
          else (mkManager m ob os).samplesPath ++ '/' :: p)) := by
  refine ⟨?_, ?_, ?_, ?_⟩
  · intro h
    unfold getSampleUrl
    rw [h]
  · intro kit hk hi
    unfold getSampleUrl
    rw [hk]
    simp only [hi]
  · intro kit hk hi
    unfold getSampleUrl
    rw [hk]
    simp only [hi]
    rw [if_pos trivial]
  · intro kit p hk hi hp
    unfold getSampleUrl
    rw [hk]
    simp only [hi]
    rw [if_neg hp]

/-- C8 counterexample: the kit "e" of manifestEmptyPath has an instruments
entry for kick storing the empty path; the claim as stated requires the URL
built from that stored path, but the source's falsy check returns null. -/
theorem C8_counterexample :
    lookupA kitEmptyPath.instruments "kick".data = some [] ∧
    getSoundkit (mkManager manifestEmptyPath none none) "e".data = some kitEmptyPath ∧
    getSampleUrl (mkManager manifestEmptyPath none none) "e".data "kick".data = none :=
  ⟨by decide, by decide, by decide⟩

/-- Witness for C8 (amended) on a one-kit manifest without a base URL. -/
theorem C8_getSampleUrl_witness :
    getSoundkit (mkManager manifestA none none) "a".data = some kitA ∧
    lookupA kitA.instruments "kick".data = some "kick/A - kick.wav".data ∧
    getSampleUrl (mkManager manifestA none none) "a".data "kick".data =
      some (if (mkManager manifestA none none).baseUrl ≠ []
        then (mkManager manifestA none none).baseUrl ++ '/' ::
          ((mkManager manifestA none none).samplesPath ++ '/' :: "kick/A - kick.wav".data)
        else (mkManager manifestA none none).samplesPath ++ '/' :: "kick/A - kick.wav".data) :=
  ⟨by decide, by decide,
    (C8_getSampleUrl manifestA none none "a".data "kick".data).2.2.2 kitA
      "kick/A - kick.wav".data (by decide) (by decide) (by decide)⟩

theorem lookupA_constInit {α : Type} (v : α) (instruments : List Str) :
    ∀ (m : List (Str × α)) (t : Str),
    lookupA (instruments.foldl (fun a i => objInsert a i v) m) t =
      if t ∈ instruments then some v else lookupA m t := by
  induction instruments with
  | nil => intro m t; simp
  | cons i is ih =>
    intro m t
    rw [List.foldl_cons, ih]
    by_cases ht : t ∈ is
    · rw [if_pos ht, if_pos (List.mem_cons_of_mem i ht)]
    · rw [if_neg ht, lookupA_objInsert]
      by_cases hti : i = t
      · subst hti
        rw [if_pos rfl, if_pos (List.mem_cons_self i is)]
      · rw [if_neg hti, if_neg (fun hc => by
          rcases List.mem_cons.mp hc with h | h
          · exact hti h.symm
          · exact ht h)]

theorem lookupA_objInsert_isSome {α : Type} (l : List (Str × α)) (k : Str) (v : α) (i : Str)
    (h : (lookupA l i).isSome = true) : (lookupA (objInsert l k v) i).isSome = true := by
  rw [lookupA_objInsert]
  by_cases hk : k = i
  · rw [if_pos hk]; rfl
  · rw [if_neg hk]; exact h

theorem pushToInstr_none_iff (mp : List (Str × List Str)) (inst id : Str) :
    pushToInstr mp inst id = none ↔ lookupA mp inst = none := by
  unfold pushToInstr
  cases h : lookupA mp inst <;> simp

theorem pushToInstr_some (mp : List (Str × List Str)) (inst id : Str)
    (mp2 : List (Str × List Str)) (h : pushToInstr mp inst id = some mp2) :
    (∀ t, lookupA mp2 t =
      if t = inst then (lookupA mp t).map (fun l => l ++ [id]) else lookupA mp t) := by
  unfold pushToInstr at h
  cases hl : lookupA mp inst with
  | none => rw [hl] at h; exact Option.noConfusion h
  | some l0 =>
    rw [hl] at h
    have hmp2 : mp2 = mp.map (fun e => (e.1, if e.1 = inst then e.2 ++ [id] else e.2)) :=
      (Option.some.inj h).symm
    subst hmp2
    intro t
    rw [lookupA_mapEntries (fun a b => if a = inst then b ++ [id] else b)]
    by_cases ht : t = inst
    · subst ht
      rw [if_pos rfl]
      cases lookupA mp t <;> simp
    · rw [if_neg ht]
      cases lookupA mp t <;> simp [ht]

theorem pushAll_spec (id : Str) (ts : List Str) : ∀ mp : List (Str × List Str),
    (pushAll mp id ts = none ↔ ∃ t ∈ ts, lookupA mp t = none) ∧
    (∀ mp2, pushAll mp id ts = some mp2 →
      (∀ t, (lookupA mp2 t).isSome = (lookupA mp t).isSome) ∧
      (∀ t l2, lookupA mp2 t = some l2 →
        ∃ l, lookupA mp t = some l ∧ ∀ i ∈ l2, i ∈ l ∨ i = id)) := by
  induction ts with
  | nil =>
    intro mp
    constructor
    · simp [pushAll]
    · intro mp2 h
      have : mp = mp2 := Option.some.inj h
      subst this
      exact ⟨fun t => rfl, fun t l2 hl2 => ⟨l2, hl2, fun i hi => Or.inl hi⟩⟩
  | cons t0 ts ih =>
    intro mp
    unfold pushAll
    cases hp : pushToInstr mp t0 id with
    | none =>
      have h0 : lookupA mp t0 = none := (pushToInstr_none_iff mp t0 id).mp hp
      constructor
      · simp only [true_iff]
        exact ⟨t0, List.mem_cons_self t0 ts, h0⟩
      · intro mp2 h
        exact Option.noConfusion h
    | some mp1 =>
      have hlk := pushToInstr_some mp t0 id mp1 hp
      have h0 : ¬ (lookupA mp t0 = none) := by
        intro hc
        rw [← pushToInstr_none_iff mp t0 id] at hc
        rw [hp] at hc
        exact Option.noConfusion hc
      obtain ⟨ihn, ihs⟩ := ih mp1
      constructor
      · rw [ihn]
        constructor
        · rintro ⟨t, ht, hnone⟩
          refine ⟨t, List.mem_cons_of_mem _ ht, ?_⟩
          rw [hlk t] at hnone
          by_cases htt : t = t0
          · rw [if_pos htt] at hnone
            cases hc : lookupA mp t
            · rfl
            · rw [hc] at hnone; exact Option.noConfusion hnone
          · rw [if_neg htt] at hnone
            exact hnone
        · rintro ⟨t, ht, hnone⟩
          rcases List.mem_cons.mp ht with rfl | ht'
          · exact absurd hnone h0
          · refine ⟨t, ht', ?_⟩
            rw [hlk t]
            by_cases htt : t = t0
            · subst htt
              exact absurd hnone h0
            · rw [if_neg htt]
              exact hnone
      · intro mp2 h
        obtain ⟨hsome2, hval2⟩ := ihs mp2 h
        constructor
        · intro t
          rw [hsome2 t, hlk t]
          by_cases htt : t = t0
          · rw [if_pos htt]
            cases lookupA mp t <;> rfl
          · rw [if_neg htt]
        · intro t l2 hl2
          obtain ⟨l1, hl1, hsub1⟩ := hval2 t l2 hl2
          rw [hlk t] at hl1
          by_cases htt : t = t0
          · rw [if_pos htt] at hl1
            cases hc : lookupA mp t with
            | none => rw [hc] at hl1; exact Option.noConfusion hl1
            | some l0 =>
              rw [hc] at hl1
              have hl1' : l0 ++ [id] = l1 := Option.some.inj hl1
              refine ⟨l0, rfl, ?_⟩
              intro i hi
              rcases hsub1 i hi with hil | rfl
              · rw [← hl1'] at hil
                rcases List.mem_append.mp hil with h | h
                · exact Or.inl h
                · rw [List.mem_singleton] at h
                  exact Or.inr h
              · exact Or.inr rfl
          · rw [if_neg htt] at hl1
            exact ⟨l1, hl1, hsub1⟩

theorem buildGo_km_mono (kits : List Kit) : ∀ km im km2 im2,
    buildGo kits (km, im) = some (km2, im2) →
    ∀ i, (lookupA km i).isSome = true → (lookupA km2 i).isSome = true := by
  induction kits with
  | nil =>
    intro km im km2 im2 h i hi
    have h' : (km, im) = (km2, im2) := Option.some.inj h
    have hkm : km = km2 := congrArg Prod.fst h'
    rw [← hkm]
    exact hi
  | cons kit kits ih =>
    intro km im km2 im2 h i hi
    unfold buildGo at h
    cases hp : pushAll im kit.id kit.availableInstruments with
    | none => rw [hp] at h; exact Option.noConfusion h
    | some im1 =>
      rw [hp] at h
      exact ih _ _ _ _ h i (lookupA_objInsert_isSome km kit.id kit i hi)

theorem buildGo_spec (kits : List Kit) : ∀ (km : List (Str × Kit)) (im : List (Str × List Str)),
    ((buildGo kits (km, im)).isSome = true ↔
      ∀ kit ∈ kits, ∀ t ∈ kit.availableInstruments, (lookupA im t).isSome = true) ∧
    (∀ km2 im2, buildGo kits (km, im) = some (km2, im2) →
      ∀ t l2, lookupA im2 t = some l2 → ∀ i ∈ l2,
        (∃ l, lookupA im t = some l ∧ i ∈ l) ∨ (lookupA km2 i).isSome = true) := by
  induction kits with
  | nil =>
    intro km im
    constructor
    · simp [buildGo]
    · intro km2 im2 h t l2 hl2 i hi
      have h' : (km, im) = (km2, im2) := Option.some.inj h
      have him : im = im2 := congrArg Prod.snd h'
      rw [← him] at hl2
      exact Or.inl ⟨l2, hl2, hi⟩
  | cons kit kits ih =>
    intro km im
    obtain ⟨pan, pas⟩ := pushAll_spec kit.id kit.availableInstruments im
    constructor
    · unfold buildGo
      cases hp : pushAll im kit.id kit.availableInstruments with
      | none =>
        have hex : ∃ t ∈ kit.availableInstruments, lookupA im t = none := pan.mp hp
        constructor
        · intro hc; exact absurd hc (by simp)
        · intro hall
          obtain ⟨t, ht, hnone⟩ := hex
          have := hall kit (List.mem_cons_self kit kits) t ht
          rw [hnone] at this
          exact absurd this (by simp)
      | some im1 =>
        obtain ⟨ihn, -⟩ := ih (objInsert km kit.id kit) im1
        obtain ⟨hsome1, -⟩ := pas im1 hp
        rw [ihn]
        constructor
        · intro hall kit' hk' t ht
          rcases List.mem_cons.mp hk' with rfl | hk''
          · by_contra hc
            have hnone : lookupA im t = none := by
              cases hcc : lookupA im t with
              | none => rfl
              | some v => exact absurd (by rw [hcc]; rfl) hc
            have : pushAll im kit'.id kit'.availableInstruments = none :=
              pan.mpr ⟨t, ht, hnone⟩
            rw [hp] at this
            exact Option.noConfusion this
          · have := hall kit' hk'' t ht
            rw [hsome1 t] at this
            exact this
        · intro hall kit' hk' t ht
          rw [hsome1 t]
          exact hall kit' (List.mem_cons_of_mem _ hk') t ht
    · unfold buildGo
      cases hp : pushAll im kit.id kit.availableInstruments with
      | none =>
        intro km2 im2 h
        exact Option.noConfusion h
      | some im1 =>
        intro km2 im2 h t l2 hl2 i hi
        obtain ⟨-, hval1⟩ := pas im1 hp
        obtain ⟨-, ihs⟩ := ih (objInsert km kit.id kit) im1
        rcases ihs km2 im2 h t l2 hl2 i hi with ⟨l1, hl1, hil1⟩ | hres
        · obtain ⟨l0, hl0, hsub⟩ := hval1 t l1 hl1
          rcases hsub i hil1 with hil0 | rfl
          · exact Or.inl ⟨l0, hl0, hil0⟩
          · right
            apply buildGo_km_mono kits _ _ _ _ h
            rw [lookupA_objInsert, if_pos rfl]
            rfl
        · exact Or.inr hres

/-- C10: constructing the SoundkitManager lookup maps succeeds exactly when
every kit's availableInstruments is contained in the manifest's instrument
vocabulary — a kit listing a tag absent from manifest.instruments makes the
source throw on the uninitialized per-instrument list, modelled as none —
and under that precondition every id stored in the per-instrument lists
resolves through the id map. -/
theorem C10_buildLookupMaps (m : Manifest) :
    ((buildLookupMaps m).isSome = true ↔
      ∀ kit ∈ m.soundkits, ∀ t ∈ kit.availableInstruments, t ∈ m.instruments) ∧
    (∀ km im, buildLookupMaps m = some (km, im) →
      ∀ t l, lookupA im t = some l → ∀ i ∈ l, (lookupA km i).isSome = true) := by
  have hinit : ∀ t,
      lookupA (m.instruments.foldl (fun a i => objInsert a i ([] : List Str)) []) t =
      if t ∈ m.instruments then some ([] : List Str) else none := by
    intro t
    rw [lookupA_constInit]
    by_cases ht : t ∈ m.instruments
    · rw [if_pos ht, if_pos ht]
    · rw [if_neg ht, if_neg ht]
      rfl
  obtain ⟨hgn, hgs⟩ := buildGo_spec m.soundkits []
    (m.instruments.foldl (fun a i => objInsert a i []) [])
  constructor
  · unfold buildLookupMaps
    rw [hgn]
    constructor
    · intro hall kit hk t ht
      have := hall kit hk t ht
      rw [hinit t] at this
      by_cases htm : t ∈ m.instruments
      · exact htm
      · rw [if_neg htm] at this
        exact absurd this (by simp)
    · intro hall kit hk t ht
      rw [hinit t, if_pos (hall kit hk t ht)]
      rfl
  · intro km im h t l hl i hi
    rcases hgs km im h t l hl i hi with ⟨l0, hl0, hi0⟩ | hres
    · rw [hinit t] at hl0
      by_cases htm : t ∈ m.instruments
      · rw [if_pos htm] at hl0
        have : l0 = [] := (Option.some.inj hl0).symm
        subst this
        exact absurd hi0 (List.not_mem_nil i)
      · rw [if_neg htm] at hl0
        exact Option.noConfusion hl0
    · exact hres

/-- Witness for C10: on the one-kit manifest the construction succeeds and
the id stored under kick resolves; on the manifest with a foreign tag it
throws. -/
theorem C10_buildLookupMaps_witness :
    (∀ kit ∈ manifestA.soundkits, ∀ t ∈ kit.availableInstruments, t ∈ manifestA.instruments) ∧
    (buildLookupMaps manifestA).isSome = true ∧
    (lookupA [("a".data, kitA)] "a".data).isSome = true ∧
    (buildLookupMaps manifestForeign).isSome = false := by
  refine ⟨by decide, (C10_buildLookupMaps manifestA).1.mpr (by decide), ?_, ?_⟩
  · exact (C10_buildLookupMaps manifestA).2 [("a".data, kitA)] [("kick".data, ["a".data])]
      (by decide) "kick".data ["a".data] (by decide) "a".data (by decide)
  · cases hc : (buildLookupMaps manifestForeign).isSome with
    | false => rfl
    | true =>
      have := (C10_buildLookupMaps manifestForeign).1.mp hc kitForeignTag (by decide)
        "tom".data (by decide)
      exact absurd this (by decide)

/-- Witness for C5 on a concrete scan and on the empty kit set. -/
theorem C5_statistics_consistent_witness :
    (lookupA (generateManifest cfgKick [] (scan cfgKick listTwoKits)).statistics.instrumentCoverage
      "kick".data).isSome = true ∧
    (generateStatistics cfgKick []).averageCompleteness = 0 :=
  ⟨(C5_statistics_consistent cfgKick listTwoKits []).1.2.2.1 "kick".data (by decide),
   (C5_statistics_consistent cfgKick listTwoKits []).2.2.2.2.1⟩

/-- Witness for C6 at the spec's example name. -/
theorem C6_generateId_slug_witness :
    generateId "Batman Begins".data = generateIdSpec "Batman Begins".data ∧
    generateId "Batman Begins".data = "batman-begins".data :=
  ⟨C6_generateId_slug.1 "Batman Begins".data, C6_generateId_slug.2⟩

/-- Witness for C9 on a concrete manifest. -/
theorem C9_sort_by_completeness_witness :
    (getSoundkitsByCompleteness (mkManager manifestA none none) true).Perm
      manifestA.soundkits ∧
    (getSoundkitsByCompleteness (mkManager manifestA none none) true).filter
        (fun kit => decide (kit.completeness = 0)) =
      manifestA.soundkits.filter (fun kit => decide (kit.completeness = 0)) :=
  ⟨(C9_sort_by_completeness manifestA none none true).2.1,
   (C9_sort_by_completeness manifestA none none true).2.2 0⟩
